import Mathlib

/-!
Verification development for the memvec repository: a growable, file-persisted
vector (`MemVec`) generic over a byte-buffer "memory capability" (`Memory`),
with a memory-mapped-file backing (`MmapFile`) and a persistent vector file
(`VecFile`, an 8-byte length header followed by a data region).

The development shallowly embeds the Rust sources at two granularities:

* a byte-level model of the `Memory`/`MmapFile`/`VecFile` layer and of the
  `RawVec`-style growth arithmetic (`usize` arithmetic is `Nat` with explicit
  `% 2 ^ 64` where the source uses wrapping operations), used for the
  persistence, binding-validation, reserve/shrink and overflow claims; and
* an element-level model of the `MemVec` container algorithms (push, pop,
  insert, remove, swap_remove, truncate, set_len, retain, dedup, reserve,
  shrink), where the backing buffer is a `List` of elements and the stored
  length is a natural number, used for the algorithmic and invariant claims.

Fallible operations return an explicit outcome distinguishing a typed error
(`Result::Err` surfaced to the caller) from a Rust panic/abort.
-/

/-! ### usize arithmetic (64-bit) -/

/-- `2 ^ 64`, the modulus of `usize` arithmetic on the 64-bit targets the
crate is built for. -/
def U64 : Nat := 2 ^ 64

/-- `usize::wrapping_sub`: `(a - b) mod 2^64` on the wrapped representatives. -/
def wsub (a b : Nat) : Nat := (a % U64 + (U64 - b % U64)) % U64

/-- The test `(x as isize) < 0` applied to a wrapped `usize` value. -/
def isizeNeg (n : Nat) : Bool := 2 ^ 63 ≤ n % U64

/-- `usize::checked_add`: `none` models the `None` that
`unwrap_or_else(capacity_overflow)` turns into a fatal panic. -/
def checkedAdd (a b : Nat) : Option Nat := if a + b < U64 then some (a + b) else none

/-! ### RawVec-style growth policy (`mem_vec.rs`, `MIN_NON_ZERO_CAP`,
`grow_amortized`, `grow_exact`) -/

/-- `MemVec::MIN_NON_ZERO_CAP` as a function of `size_of::<T>()`:
8 when the element size is 1 byte, 4 when it is at most 1024 bytes,
1 otherwise. -/
def minNonZeroCap (elemSize : Nat) : Nat :=
  if elemSize = 1 then 8 else if elemSize ≤ 1024 then 4 else 1

/-- Element-count target computed by `MemVec::grow_amortized len additional`:
`max(MIN_NON_ZERO_CAP, max(capacity * 2, len + additional))`, where the
addition is `checked_add` (`none` = fatal capacity-overflow panic) and the
doubling is plain `usize` multiplication. -/
def growAmortizedCapTarget (elemSize cap len additional : Nat) : Option Nat :=
  (checkedAdd len additional).map fun required =>
    max (minNonZeroCap elemSize) (max (cap * 2 % U64) required)

/-- Element-count target computed by `MemVec::grow_exact len additional`:
exactly `len + additional`, checked for overflow, with no doubling. -/
def growExactCapTarget (len additional : Nat) : Option Nat := checkedAdd len additional

/-- The byte count handed to `Memory::reserve` by `grow_amortized` /
`grow_exact`: `cap * size_of::<T>()` with unchecked (wrapping) `usize`
multiplication. -/
def reserveArgBytes (elemSize cap : Nat) : Nat := cap * elemSize % U64

/-- `MemVec::needs_to_grow`: `additional > capacity.wrapping_sub(len)`. -/
def needsToGrow (cap len additional : Nat) : Bool := wsub cap len < additional

/-! ### Byte-level model of `MmapFile::reserve` / `MmapFile::shrink`
(`mmap.rs`).

The state records the mapping offset, the underlying file bytes, and — so
that "no backing resize / remap is performed" is observable — counters of
`File::set_len` calls and of mapping replacements.  The mapped region covers
the file from `offset` to its end, so the mapped byte length is
`file.length - offset`; extending the file zero-fills.  I/O failure of the
grow path is not modelled here (the element-level model below carries an I/O
flag); the early-return no-op paths precede any I/O in the source. -/

structure MmapSt where
  offset : Nat
  file : List Nat
  setLenCalls : Nat
  remaps : Nat
deriving DecidableEq, Repr

/-- `self.mmap.len()`: byte length of the current mapping. -/
def mmapLen (m : MmapSt) : Nat := m.file.length - m.offset

/-- `MmapFile::reserve(capacity)`: computes
`additional_cap = capacity.wrapping_sub(self.mmap.len())`, returns `Ok`
immediately when `(additional_cap as isize) < 0`, otherwise extends the file
by `additional_cap` bytes and replaces the mapping. -/
def mmapReserve (capacity : Nat) (m : MmapSt) : MmapSt :=
  let additional := wsub capacity (mmapLen m)
  if isizeNeg additional then m
  else
    { m with
      file := m.file ++ List.replicate additional 0
      setLenCalls := m.setLenCalls + 1
      remaps := m.remaps + 1 }

/-- `MmapFile::shrink(capacity)` (non-Windows path): computes
`redundant_cap = self.mmap.len().wrapping_sub(capacity)`, returns `Ok`
immediately when `(redundant_cap as isize) < 0`, otherwise truncates the file
by `redundant_cap` bytes and replaces the mapping. -/
def mmapShrink (capacity : Nat) (m : MmapSt) : MmapSt :=
  let redundant := wsub (mmapLen m) capacity
  if isizeNeg redundant then m
  else
    { m with
      file := m.file.take (m.file.length - redundant)
      setLenCalls := m.setLenCalls + 1
      remaps := m.remaps + 1 }

/-! ### Bind-time validation: `MemVec::try_from_memory` (`mem_vec.rs`). -/

/-- A raw bound memory capability as `try_from_memory` sees it: the address
of the first byte (only its residue modulo the element alignment matters),
the buffer bytes, and the stored element count (`Memory::len`). -/
structure RawMem where
  startAddr : Nat
  bytes : List Nat
  len : Nat
deriving DecidableEq, Repr

/-- `MemoryConversionError` (`memory.rs`). -/
inductive MemoryConversionError where
  | alignMismatch
  | sizeMismatch
deriving DecidableEq, Repr

/-- Length of the `prefix` returned by `<[u8]>::align_to::<T>()`: the bytes
before the first address aligned to `align`, clipped to the buffer length. -/
def alignPrefixLen (align : Nat) (m : RawMem) : Nat :=
  min m.bytes.length ((align - m.startAddr % align) % align)

/-- Number of `T` elements in the middle slice of `align_to::<T>()` when the
prefix is empty: `bytes / size`, remainder bytes becoming the suffix (the
suffix emptiness check in the source is commented out). -/
def rawCapacity (elemSize : Nat) (m : RawMem) : Nat := m.bytes.length / elemSize

/-- `MemVec::try_from_memory`: fails with `AlignMismatch` when the
`align_to` prefix is non-empty, then with `SizeMismatch` when the stored
length exceeds the capacity; either error carries the untouched memory back.
The element type enters through its size and alignment. -/
def tryFromMemory (elemSize align : Nat) (m : RawMem) :
    Sum (RawMem × MemoryConversionError) RawMem :=
  if alignPrefixLen align m ≠ 0 then Sum.inl (m, MemoryConversionError.alignMismatch)
  else if rawCapacity elemSize m < m.len then Sum.inl (m, MemoryConversionError.sizeMismatch)
  else Sum.inr m

/-! ### Byte-level model of `VecFile` (`mmap.rs`) and of `MemVec::push` over
it, for the persistence round-trip.

A `VecFile` maps bytes `[0, 8)` of the file as the header (one little-endian
`u64`/`usize` length word, written through a typed pointer) and bytes
`[8, file length)` as the data region (`MmapOptions::offset(HEADER_LEN)`),
so the mapped data length is always `file length - 8` and growing the file
zero-fills.  The durable file is a byte list; `VecFileMem` is the live pair
of header word and data-region bytes.  The data mapping starts 8 bytes past
a page-aligned address, so its address is `8` modulo any element alignment
that divides the page size. -/

/-- `VecFile::HEADER_LEN = size_of::<u64>()`. -/
def HEADER_LEN : Nat := 8

/-- Little-endian bytes of the `u64` length word stored at file offset 0. -/
def encodeU64 (n : Nat) : List Nat :=
  [n % 256, n / 256 % 256, n / 256 ^ 2 % 256, n / 256 ^ 3 % 256,
   n / 256 ^ 4 % 256, n / 256 ^ 5 % 256, n / 256 ^ 6 % 256, n / 256 ^ 7 % 256]

/-- Read a little-endian `u64` back from its bytes. -/
def decodeU64 (l : List Nat) : Nat := l.foldr (fun b acc => b + 256 * acc) 0

/-- The live state of a bound `VecFile`: the header length word and the
bytes of the data-region mapping. -/
structure VecFileMem where
  lenWord : Nat
  data : List Nat
deriving DecidableEq, Repr

/-- `VecFile::from_file`: map the header (panics when the file is shorter
than `HEADER_LEN`, modelled as `none`), read the length word through the
header mapping, and map the data region at offset `HEADER_LEN`. -/
def fromFileBytes (file : List Nat) : Option VecFileMem :=
  if file.length < HEADER_LEN then none
  else some { lenWord := decodeU64 (file.take HEADER_LEN), data := file.drop HEADER_LEN }

/-- `VecFile::open_or_create` on the byte contents of an existing (possibly
empty) file: an empty file is first extended to exactly `HEADER_LEN` zero
bytes and its length word set to 0 (`VecFile::clear`), then `from_file`
runs. -/
def openOrCreateBytes (file : List Nat) : Option VecFileMem :=
  if file.length = 0 then fromFileBytes (encodeU64 0) else fromFileBytes file

/-- Serialize the live state back to the durable file: the header mapping
writes the length word at offset 0 and the data mapping covers the rest
(`into_file` + flush). -/
def toFileBytes (s : VecFileMem) : List Nat := encodeU64 s.lenWord ++ s.data

/-- `Memory::reserve` for a `VecFile` (delegating to `MmapFile::reserve`
with mapping offset `HEADER_LEN`): no-op when
`(capacity.wrapping_sub(mapped len) as isize) < 0`, otherwise the file is
extended by the difference (zero-filling) and the data mapping re-covers
bytes `[8, new file length)`. -/
def vfReserve (capacity : Nat) (s : VecFileMem) : VecFileMem :=
  let additional := wsub capacity s.data.length
  if isizeNeg additional then s
  else { s with data := s.data ++ List.replicate additional 0 }

/-- `ptr::write` of byte string `v` at byte offset `ofs` of the data region
(the element write in `MemVec::push`, laid out as `size_of` bytes). -/
def writeAt (l : List Nat) (ofs : Nat) : List Nat → List Nat
  | [] => l
  | b :: bs => writeAt (l.set ofs b) (ofs + 1) bs

/-- `MemVec::<T>::push` over a `VecFile`, at byte granularity with
`elemSize = size_of::<T>()`: when `len == capacity` (capacity being
`mapped bytes / elemSize` from `align_to`), `reserve_for_push` runs
`grow_amortized(len, 1)` and hands `target * elemSize` (wrapping) to
`Memory::reserve`; then the value's bytes are written at offset
`len * elemSize` and the header word is incremented (`usize` wrap).
`none` models the capacity-overflow panic. -/
def pushBytes (elemSize : Nat) (v : List Nat) (s : VecFileMem) : Option VecFileMem :=
  let len := s.lenWord
  let cap := s.data.length / elemSize
  let grown : Option VecFileMem :=
    if len = cap then
      match growAmortizedCapTarget elemSize cap len 1 with
      | none => none
      | some target => some (vfReserve (reserveArgBytes elemSize target) s)
    else some s
  grown.map fun s1 =>
    { s1 with data := writeAt s1.data (len * elemSize) v, lenWord := (s1.lenWord + 1) % U64 }

/-- Push a whole sequence, element by element. -/
def pushAllBytes (elemSize : Nat) : List (List Nat) → VecFileMem → Option VecFileMem
  | [], s => some s
  | v :: vs, s => (pushBytes elemSize v s).bind (pushAllBytes elemSize vs)

/-- The `VecFile`-backed capability as `try_from_memory` sees it: the data
region starts 8 bytes into the (page-aligned) mapping, the buffer is the
data-region bytes, and `Memory::len` reads the header word. -/
def toRaw (s : VecFileMem) : RawMem :=
  { startAddr := HEADER_LEN, bytes := s.data, len := s.lenWord }

/-- Element `j` of the container as read back through `as_slice`/indexing:
bytes `[j * elemSize, (j+1) * elemSize)` of the data region. -/
def chunkAt (elemSize : Nat) (data : List Nat) (j : Nat) : List Nat :=
  (data.drop (j * elemSize)).take elemSize

/-- The full element sequence read back from a bound `VecFile`. -/
def readElems (elemSize : Nat) (s : VecFileMem) : List (List Nat) :=
  (List.range s.lenWord).map (chunkAt elemSize s.data)

/-! ### Element-level model of the `MemVec` container algorithms.

The backing capability is a buffer of typed elements plus the stored length
and an `ioOk` flag saying whether backing-file I/O (resize/remap) succeeds.
`capacity` is the buffer length.  Byte quantities scale the element ones by
`size_of::<T>()`; this model assumes that multiplication does not wrap (the
wrapping behaviour is the subject of the byte-level `reserveArgBytes`
claims) and that the buffer byte length is an exact multiple of the element
size, as `VecFile`-backed growth establishes.  Spare capacity beyond `len`
holds arbitrary (`default`) junk, standing for uninitialized memory. -/

/-- Outcome of a container operation: normal return, a typed error
(`Result::Err` surfaced to the caller), or a Rust panic/abort.  Each carries
the state of the container at that point. -/
inductive Outcome (σ : Type) where
  | ok : σ → Outcome σ
  | err : σ → Outcome σ
  | panik : σ → Outcome σ
deriving DecidableEq, Repr

/-- The state the outcome left the container in, whichever way the
operation ended. -/
def outState {σ : Type} : Outcome σ → σ
  | Outcome.ok s => s
  | Outcome.err s => s
  | Outcome.panik s => s

/-- Whether the outcome is a typed error returned to the caller. -/
def isTypedErr {σ : Type} : Outcome σ → Bool
  | Outcome.err _ => true
  | _ => false

/-- Element-level state of a `MemVec` and its memory capability. -/
structure MState (α : Type) where
  buf : List α
  len : Nat
  ioOk : Bool
deriving DecidableEq, Repr

/-- `MemVec::as_slice`: the valid-length prefix of the buffer. -/
def asSlice {α : Type} (s : MState α) : List α := s.buf.take s.len

/-- `Memory::reserve` at element granularity (from `MmapFile::reserve`):
no-op before any I/O when the requested capacity is below the current one;
otherwise the resize/remap either fails (typed `io::Error`, state
uncommitted) or extends the buffer to exactly the requested capacity. -/
def memReserve {α : Type} [Inhabited α] (cap : Nat) (s : MState α) : Outcome (MState α) :=
  if cap < s.buf.length then Outcome.ok s
  else if s.ioOk then
    Outcome.ok { s with buf := s.buf ++ List.replicate (cap - s.buf.length) default }
  else Outcome.err s

/-- `Memory::shrink` at element granularity (from `MmapFile::shrink`):
no-op when the requested capacity exceeds the current one; otherwise the
file truncate/remap either fails or cuts the buffer to the requested
capacity. -/
def memShrink {α : Type} (cap : Nat) (s : MState α) : Outcome (MState α) :=
  if s.buf.length < cap then Outcome.ok s
  else if s.ioOk then Outcome.ok { s with buf := s.buf.take cap }
  else Outcome.err s

/-- `MemVec::grow_amortized`: compute the amortized target (panicking on
capacity overflow) and hand it to `Memory::reserve`. -/
def growAmortized {α : Type} [Inhabited α] (es len additional : Nat) (s : MState α) :
    Outcome (MState α) :=
  match growAmortizedCapTarget es s.buf.length len additional with
  | none => Outcome.panik s
  | some target => memReserve target s

/-- `MemVec::grow_exact`: the exact target, same plumbing. -/
def growExact {α : Type} [Inhabited α] (len additional : Nat) (s : MState α) :
    Outcome (MState α) :=
  match growExactCapTarget len additional with
  | none => Outcome.panik s
  | some target => memReserve target s

/-- `MemVec::try_reserve`. -/
def tryReserve {α : Type} [Inhabited α] (es additional : Nat) (s : MState α) :
    Outcome (MState α) :=
  if needsToGrow s.buf.length s.len additional then growAmortized es s.len additional s
  else Outcome.ok s

/-- `MemVec::reserve`: `try_reserve(..).expect(..)` — a typed error becomes
a panic. -/
def reserveOp {α : Type} [Inhabited α] (es additional : Nat) (s : MState α) :
    Outcome (MState α) :=
  match tryReserve es additional s with
  | Outcome.err t => Outcome.panik t
  | r => r

/-- `MemVec::try_reserve_exact`. -/
def tryReserveExact {α : Type} [Inhabited α] (additional : Nat) (s : MState α) :
    Outcome (MState α) :=
  if needsToGrow s.buf.length s.len additional then growExact s.len additional s
  else Outcome.ok s

/-- `MemVec::reserve_exact`. -/
def reserveExactOp {α : Type} [Inhabited α] (additional : Nat) (s : MState α) :
    Outcome (MState α) :=
  match tryReserveExact additional s with
  | Outcome.err t => Outcome.panik t
  | r => r

/-- `MemVec::shrink_to_fit`: shrink toward `len` only when capacity exceeds
it, with `.expect("shrink failed")`. -/
def shrinkToFit {α : Type} (s : MState α) : Outcome (MState α) :=
  if s.len < s.buf.length then
    match memShrink s.len s with
    | Outcome.err t => Outcome.panik t
    | r => r
  else Outcome.ok s

/-- `MemVec::shrink_to(min_capacity)`: shrink toward
`max(len, min_capacity)` when capacity exceeds `min_capacity`. -/
def shrinkTo {α : Type} (minCapacity : Nat) (s : MState α) : Outcome (MState α) :=
  if minCapacity < s.buf.length then
    match memShrink (max s.len minCapacity) s with
    | Outcome.err t => Outcome.panik t
    | r => r
  else Outcome.ok s

/-- `MemVec::set_len` (with its `len ≤ capacity` assertion). -/
def setLenOp {α : Type} (n : Nat) (s : MState α) : Outcome (MState α) :=
  if s.buf.length < n then Outcome.panik s else Outcome.ok { s with len := n }

/-- `MemVec::push`: grow (amortized, `additional = 1`) when full — the
reserve result is `.unwrap()`ed, so a grow failure panics — then write the
value at index `len` and increment the stored length (`usize` increment;
the wrap cannot fire below `2 ^ 64` elements and is omitted). -/
def push {α : Type} [Inhabited α] (es : Nat) (v : α) (s : MState α) : Outcome (MState α) :=
  match (if s.len = s.buf.length then growAmortized es s.len 1 s else Outcome.ok s) with
  | Outcome.panik t => Outcome.panik t
  | Outcome.err t => Outcome.panik t
  | Outcome.ok t => Outcome.ok { t with buf := t.buf.set t.len v, len := t.len + 1 }

/-- `MemVec::pop`: `None` on empty, otherwise decrement the length and read
the element there. -/
def pop {α : Type} [Inhabited α] (s : MState α) : Option α × MState α :=
  if s.len = 0 then (none, s)
  else (some (s.buf.getD (s.len - 1) default), { s with len := s.len - 1 })

/-- `MemVec::truncate`: early return when `len > self.len()`, otherwise the
length cell is set directly (elements are `Copy`, so the drops are no-ops). -/
def truncateOp {α : Type} (n : Nat) (s : MState α) : MState α :=
  if s.len < n then s else { s with len := n }

/-- `MemVec::clear = truncate(0)`. -/
def clearOp {α : Type} (s : MState α) : MState α := truncateOp 0 s

/-- `MemVec::swap_remove`: bounds panic when `index ≥ len`; otherwise the
last element overwrites slot `index` and `set_len(len - 1)` runs. -/
def swapRemove {α : Type} [Inhabited α] (index : Nat) (s : MState α) : Outcome (MState α) :=
  if s.len ≤ index then Outcome.panik s
  else
    match setLenOp (s.len - 1) { s with buf := s.buf.set index (s.buf.getD (s.len - 1) default) } with
    | Outcome.panik t => Outcome.panik t
    | r => r

/-- `MemVec::insert`: bounds panic when `index > len`; grow by
`reserve(1)` when full (its `.expect` panics on error); shift
`[index, len)` up one slot, write the element, `set_len(len + 1)`. -/
def insertOp {α : Type} [Inhabited α] (es index : Nat) (v : α) (s : MState α) :
    Outcome (MState α) :=
  if s.len < index then Outcome.panik s
  else
    match (if s.len = s.buf.length then reserveOp es 1 s else Outcome.ok s) with
    | Outcome.panik t => Outcome.panik t
    | Outcome.err t => Outcome.panik t
    | Outcome.ok t =>
        let shifted := t.buf.take index ++ v :: ((t.buf.drop index).take (s.len - index))
          ++ t.buf.drop (s.len + 1)
        setLenOp (s.len + 1) { t with buf := shifted }

/-- `MemVec::remove`: bounds panic when `index ≥ len`; read the element,
shift `(index, len)` down one slot, `set_len(len - 1)` (slot `len - 1`
keeps its stale byte copy beyond the new length). -/
def removeOp {α : Type} [Inhabited α] (index : Nat) (s : MState α) : Outcome (MState α) :=
  if s.len ≤ index then Outcome.panik s
  else
    let shifted := s.buf.take index ++ ((s.buf.drop (index + 1)).take (s.len - 1 - index))
      ++ s.buf.drop (s.len - 1)
    match setLenOp (s.len - 1) { s with buf := shifted } with
    | Outcome.panik t => Outcome.panik t
    | r => r

/-- `ptr::copy` (memmove) of `cnt` elements from offset `src` to offset
`dst` of the buffer: the `cnt` source values are those of the original
buffer. -/
def copyWithin {α : Type} (buf : List α) (dst src cnt : Nat) : List α :=
  buf.take dst ++ (buf.drop src).take cnt ++ buf.drop (dst + cnt)

/-- The `BackshiftOnDrop` guard state of `MemVec::retain_mut`: the buffer,
the processed and deleted counters, and whether the predicate aborted. -/
structure RetainSt (α : Type) where
  buf : List α
  processed : Nat
  deleted : Nat
  aborted : Bool
deriving DecidableEq, Repr

/-- The scan loop of `MemVec::retain_mut` (the two `process_loop` stages
merged: stage one never has `deleted > 0`, stage two always does — which is
exactly the `0 < deleted` test on the write-back).  A `none` from the
predicate is its panic; the counters advance before it can fire on a
rejection, as in the source.  The fuel is only the structural-termination
measure: the loop stops at `processed = origLen` and is always run with
`fuel ≥ origLen`. -/
def retainLoop {α : Type} [Inhabited α] (f : α → Option Bool) (origLen : Nat) :
    Nat → List α → Nat → Nat → RetainSt α
  | 0, buf, processed, deleted => ⟨buf, processed, deleted, false⟩
  | fuel + 1, buf, processed, deleted =>
    if processed < origLen then
      let cur := buf.getD processed default
      match f cur with
      | none => ⟨buf, processed, deleted, true⟩
      | some false => retainLoop f origLen fuel buf (processed + 1) (deleted + 1)
      | some true =>
          let buf' := if 0 < deleted then buf.set (processed - deleted) cur else buf
          retainLoop f origLen fuel buf' (processed + 1) deleted
    else ⟨buf, processed, deleted, false⟩

/-- `MemVec::retain_mut`: `set_len(0)`, the scan, then the
`BackshiftOnDrop` logic — run on every exit path, normal or panicking:
when anything was deleted, the unvisited tail is copied down over the
holes; then `set_len(original_len - deleted_cnt)`.  On a predicate panic
the adjusted state propagates with the panic. -/
def retainMut {α : Type} [Inhabited α] (f : α → Option Bool) (s : MState α) :
    Outcome (MState α) :=
  let n := s.len
  let g := retainLoop f n n s.buf 0 0
  let buf2 :=
    if 0 < g.deleted then copyWithin g.buf (g.processed - g.deleted) g.processed (n - g.processed)
    else g.buf
  match setLenOp (n - g.deleted) { s with buf := buf2, len := 0 } with
  | Outcome.ok t => if g.aborted then Outcome.panik t else Outcome.ok t
  | other => other

/-- `MemVec::retain` delegates to `retain_mut`. -/
def retainOp {α : Type} [Inhabited α] (f : α → Option Bool) (s : MState α) :
    Outcome (MState α) :=
  retainMut f s

/-- Reference description of one left-to-right retain scan over a list:
the kept elements, the number rejected, the suffix not yet visited when the
predicate aborted (empty on a completed scan), and the abort flag. -/
structure ScanRes (α : Type) where
  kept : List α
  deleted : Nat
  unvisited : List α
  aborted : Bool
deriving DecidableEq, Repr

/-- One retain scan of a list by `f : α → Option Bool` (`none` = the
predicate aborts there). -/
def scanSpec {α : Type} (f : α → Option Bool) : List α → ScanRes α
  | [] => ⟨[], 0, [], false⟩
  | x :: xs =>
    match f x with
    | none => ⟨[], 0, x :: xs, true⟩
    | some true =>
        let r := scanSpec f xs
        ⟨x :: r.kept, r.deleted, r.unvisited, r.aborted⟩
    | some false =>
        let r := scanSpec f xs
        ⟨r.kept, r.deleted + 1, r.unvisited, r.aborted⟩

/-- The `FillGapOnDrop` guard state of `MemVec::dedup_by`. -/
structure DedupSt (α : Type) where
  buf : List α
  read : Nat
  write : Nat
  aborted : Bool
deriving DecidableEq, Repr

/-- The scan loop of `MemVec::dedup_by`: compare the element at `read`
with the last kept element (at `write - 1`); equal elements are dropped
(`read` advances), others are copied to `write`.  A `none` comparator
models its panic. -/
def dedupLoop {α : Type} [Inhabited α] (f : α → α → Option Bool) (len : Nat) :
    Nat → List α → Nat → Nat → DedupSt α
  | 0, buf, read, write => ⟨buf, read, write, false⟩
  | fuel + 1, buf, read, write =>
    if read < len then
      match f (buf.getD read default) (buf.getD (write - 1) default) with
      | none => ⟨buf, read, write, true⟩
      | some true => dedupLoop f len fuel buf (read + 1) write
      | some false =>
          dedupLoop f len fuel (buf.set write (buf.getD read default)) (read + 1) (write + 1)
    else ⟨buf, read, write, false⟩

/-- `MemVec::dedup_by`: early return when `len ≤ 1`; on a completed scan
`set_len(write)`; on a comparator panic the `FillGapOnDrop` guard copies
`[read, len)` down to `write` and runs `set_len(len - (read - write))`
before the panic propagates. -/
def dedupByOp {α : Type} [Inhabited α] (f : α → α → Option Bool) (s : MState α) :
    Outcome (MState α) :=
  let len := s.len
  if len ≤ 1 then Outcome.ok s
  else
    let g := dedupLoop f len len s.buf 1 1
    if g.aborted then
      let buf2 := copyWithin g.buf g.write g.read (len - g.read)
      match setLenOp (len - (g.read - g.write)) { s with buf := buf2 } with
      | Outcome.ok t => Outcome.panik t
      | other => other
    else
      match setLenOp g.write { s with buf := g.buf } with
      | Outcome.panik t => Outcome.panik t
      | r => r

/-- `MemVec::dedup` for `T: PartialEq`: `dedup_by(|a, b| a == b)`. -/
def dedupOp {α : Type} [Inhabited α] [DecidableEq α] (s : MState α) : Outcome (MState α) :=
  dedupByOp (fun a b => some (decide (a = b))) s

/-- Reference adjacent-dedup of the tail of a list, given the last kept
element `prev`: drop each element the comparator judges equal to the
previous kept one, keep the rest. -/
def dedupFrom {α : Type} (eq : α → α → Bool) (prev : α) : List α → List α
  | [] => []
  | y :: ys => if eq y prev then dedupFrom eq prev ys else y :: dedupFrom eq y ys

/-- Reference adjacent-dedup of a list: the first element of every run of
judged-equal elements survives, in order. -/
def dedupSpec {α : Type} (eq : α → α → Bool) : List α → List α
  | [] => []
  | x :: xs => x :: dedupFrom eq x xs

/-- No element of `l` is judged equal (by `eq`, applied as
`eq current previous` like `same_bucket`) to its immediate predecessor. -/
def noAdjacent {α : Type} [Inhabited α] (eq : α → α → Bool) (l : List α) : Prop :=
  ∀ i, i + 1 < l.length → eq (l.getD (i + 1) default) (l.getD i default) = false

/-- The public container operations of claim C5, as one sum type
(predicates and comparators may abort: `none`). -/
inductive Op (α : Type) where
  | push (v : α)
  | pop
  | insert (index : Nat) (v : α)
  | remove (index : Nat)
  | swapRemove (index : Nat)
  | truncate (n : Nat)
  | clear
  | setLen (n : Nat)
  | retain (f : α → Option Bool)
  | dedupBy (f : α → α → Option Bool)
  | reserve (additional : Nat)
  | reserveExact (additional : Nat)
  | shrinkToFit
  | shrinkTo (minCapacity : Nat)

/-- Run one public operation (element size `es`), discarding any returned
value and keeping the container outcome. -/
def applyOp {α : Type} [Inhabited α] (es : Nat) : Op α → MState α → Outcome (MState α)
  | Op.push v, s => push es v s
  | Op.pop, s => Outcome.ok (pop s).2
  | Op.insert i v, s => insertOp es i v s
  | Op.remove i, s => removeOp i s
  | Op.swapRemove i, s => swapRemove i s
  | Op.truncate n, s => Outcome.ok (truncateOp n s)
  | Op.clear, s => Outcome.ok (clearOp s)
  | Op.setLen n, s => setLenOp n s
  | Op.retain f, s => retainMut f s
  | Op.dedupBy f, s => dedupByOp f s
  | Op.reserve n, s => reserveOp es n s
  | Op.reserveExact n, s => reserveExactOp n s
  | Op.shrinkToFit, s => shrinkToFit s
  | Op.shrinkTo m, s => shrinkTo m s

/-! ## Helper lemmas -/

theorem U64_eq : U64 = 18446744073709551616 := by norm_num [U64]

theorem wsub_of_le {a b : Nat} (hba : b ≤ a) (ha : a < U64) : wsub a b = a - b := by
  have hb : b < U64 := Nat.lt_of_le_of_lt hba ha
  rw [U64_eq] at ha hb
  simp only [wsub, U64_eq]
  omega

theorem wsub_of_lt {a b : Nat} (hab : a < b) (hb : b < U64) : wsub a b = U64 - (b - a) := by
  have ha : a < U64 := Nat.lt_trans hab hb
  rw [U64_eq] at ha hb ⊢
  simp only [wsub, U64_eq]
  omega

theorem isizeNeg_of_lt {n : Nat} (h : n < 2 ^ 63) : isizeNeg n = false := by
  have : n % U64 = n := Nat.mod_eq_of_lt (by rw [U64_eq]; omega)
  simp [isizeNeg, this]
  omega

theorem isizeNeg_true {n : Nat} (h1 : 2 ^ 63 ≤ n) (h2 : n < U64) : isizeNeg n = true := by
  have : n % U64 = n := Nat.mod_eq_of_lt h2
  simp only [isizeNeg, this, decide_eq_true_eq]
  exact h1

theorem minNonZeroCap_le_8 (es : Nat) : minNonZeroCap es ≤ 8 := by
  unfold minNonZeroCap
  split <;> [omega; skip]
  split <;> omega

theorem minNonZeroCap_pos (es : Nat) : 0 < minNonZeroCap es := by
  unfold minNonZeroCap
  split <;> [omega; skip]
  split <;> omega

theorem needsToGrow_eq {cap len additional : Nat} (h : len ≤ cap) (hcap : cap < U64) :
    needsToGrow cap len additional = decide (cap - len < additional) := by
  simp [needsToGrow, wsub_of_le h hcap]

theorem growAmortizedCapTarget_le {es cap len additional t : Nat}
    (h : growAmortizedCapTarget es cap len additional = some t) : len + additional ≤ t := by
  unfold growAmortizedCapTarget checkedAdd at h
  split at h
  · simp only [Option.map_some', Option.some.injEq] at h
    omega
  · simp at h

theorem growExactCapTarget_eq {len additional t : Nat}
    (h : growExactCapTarget len additional = some t) : t = len + additional := by
  unfold growExactCapTarget checkedAdd at h
  split at h
  · simp only [Option.some.injEq] at h
    omega
  · simp at h

theorem memReserve_err {α : Type} [Inhabited α] {cap : Nat} {s : MState α}
    (hcap : s.buf.length ≤ cap) (hio : s.ioOk = false) : memReserve cap s = Outcome.err s := by
  unfold memReserve
  rw [if_neg (by omega), if_neg (by simp [hio])]


theorem memReserve_ok {α : Type} [Inhabited α] {cap : Nat} {s t : MState α}
    (h : memReserve cap s = Outcome.ok t) :
    t.len = s.len ∧ t.ioOk = s.ioOk ∧ s.buf.length ≤ t.buf.length ∧ cap ≤ t.buf.length := by
  unfold memReserve at h
  split at h
  · rename_i hlt
    cases h
    exact ⟨rfl, rfl, Nat.le_refl _, by omega⟩
  · rename_i hge
    split at h
    · cases h
      refine ⟨rfl, rfl, ?_, ?_⟩ <;>
        simp only [List.length_append, List.length_replicate] <;> omega
    · cases h

theorem memShrink_ok {α : Type} {cap : Nat} {s t : MState α}
    (h : memShrink cap s = Outcome.ok t) :
    t.len = s.len ∧ t.ioOk = s.ioOk ∧ (t.buf.length = min cap s.buf.length ∨ t = s) := by
  unfold memShrink at h
  split at h
  · cases h
    exact ⟨rfl, rfl, Or.inr rfl⟩
  · split at h
    · cases h
      refine ⟨rfl, rfl, Or.inl ?_⟩
      simp only [List.length_take]
    · cases h

theorem growAmortized_ok {α : Type} [Inhabited α] {es len additional : Nat} {s t : MState α}
    (h : growAmortized es len additional s = Outcome.ok t) :
    t.len = s.len ∧ t.ioOk = s.ioOk ∧ s.buf.length ≤ t.buf.length ∧
      len + additional ≤ t.buf.length := by
  unfold growAmortized at h
  split at h
  · cases h
  · rename_i target htarget
    have hle := growAmortizedCapTarget_le htarget
    obtain ⟨h1, h2, h3, h4⟩ := memReserve_ok h
    exact ⟨h1, h2, h3, by omega⟩

theorem growExact_ok {α : Type} [Inhabited α] {len additional : Nat} {s t : MState α}
    (h : growExact len additional s = Outcome.ok t) :
    t.len = s.len ∧ t.ioOk = s.ioOk ∧ s.buf.length ≤ t.buf.length ∧
      len + additional ≤ t.buf.length := by
  unfold growExact at h
  split at h
  · cases h
  · rename_i target htarget
    have hle := growExactCapTarget_eq htarget
    obtain ⟨h1, h2, h3, h4⟩ := memReserve_ok h
    exact ⟨h1, h2, h3, by omega⟩

/-! ## Claim C6 — growth-policy targets -/

/-- C6: whenever growth is needed (`additional > capacity - len`),
`grow_amortized` requests exactly
`max(MIN_NON_ZERO_CAP, max(capacity * 2, len + additional))` elements, with
`MIN_NON_ZERO_CAP` equal to 8 for 1-byte elements, 4 for elements of at
most 1024 bytes and 1 otherwise; `grow_exact` requests exactly
`len + additional` with no doubling; and overflow of `len + additional` is
a fatal abort (`none`) in both paths. -/
theorem c6_growth_policy (es cap len additional : Nat)
    (hneed : needsToGrow cap len additional = true) (hcap : cap < 2 ^ 63) :
    (len + additional < 2 ^ 64 →
      growAmortizedCapTarget es cap len additional =
        some (max (if es = 1 then 8 else if es ≤ 1024 then 4 else 1)
          (max (cap * 2) (len + additional)))
      ∧ growExactCapTarget len additional = some (len + additional))
    ∧ (2 ^ 64 ≤ len + additional →
      growAmortizedCapTarget es cap len additional = none
      ∧ growExactCapTarget len additional = none) := by
  constructor
  · intro hov
    have hdbl : cap * 2 % U64 = cap * 2 := Nat.mod_eq_of_lt (by rw [U64_eq]; omega)
    have hadd : checkedAdd len additional = some (len + additional) := by
      unfold checkedAdd
      rw [if_pos (by rw [U64_eq]; omega)]
    constructor
    · simp [growAmortizedCapTarget, hadd, hdbl, minNonZeroCap]
    · simp [growExactCapTarget, hadd]
  · intro hov
    have hadd : checkedAdd len additional = none := by
      unfold checkedAdd
      rw [if_neg (by rw [U64_eq]; omega)]
    constructor
    · simp [growAmortizedCapTarget, hadd]
    · simp [growExactCapTarget, hadd]

theorem c6_growth_policy_witness :
    needsToGrow 2 2 1 = true ∧ (2 : Nat) < 2 ^ 63 ∧
      ((2 + 1 < 2 ^ 64 →
        growAmortizedCapTarget 4 2 2 1 =
          some (max (if (4 : Nat) = 1 then 8 else if (4 : Nat) ≤ 1024 then 4 else 1)
            (max (2 * 2) (2 + 1)))
        ∧ growExactCapTarget 2 1 = some (2 + 1))
      ∧ (2 ^ 64 ≤ 2 + 1 →
        growAmortizedCapTarget 4 2 2 1 = none ∧ growExactCapTarget 2 1 = none)) :=
  ⟨by decide, by norm_num, c6_growth_policy 4 2 2 1 (by decide) (by norm_num)⟩

/-! ## Claim C10 — unchecked byte-count multiplication can wrap -/

/-- C10: only the element-count addition `len + additional` is
overflow-checked; the byte count handed to `Memory::reserve` is
`target * size_of::<T>()` with wrapping multiplication, so for every
element size above 1 there are in-range `len`/`additional` (no
capacity-overflow abort, growth genuinely needed) for which the requested
byte count wraps and the capability is asked for fewer bytes than the
computed target capacity requires. -/
theorem c10_reserve_byte_overflow (es : Nat) (h2 : 2 ≤ es) :
    ∃ cap len additional t₁ t₂,
      needsToGrow cap len additional = true ∧
      len + additional < 2 ^ 64 ∧
      growAmortizedCapTarget es cap len additional = some t₁ ∧
      reserveArgBytes es t₁ < t₁ * es ∧
      growExactCapTarget len additional = some t₂ ∧
      reserveArgBytes es t₂ < t₂ * es := by
  have hU : (0 : Nat) < U64 := by rw [U64_eq]; norm_num
  refine ⟨2 ^ 63 - 1, 2 ^ 63 - 1, 1, 2 ^ 64 - 2, 2 ^ 63, ?_, ?_, ?_, ?_, ?_, ?_⟩
  · rw [needsToGrow_eq (Nat.le_refl _) (by rw [U64_eq]; norm_num)]
    norm_num
  · norm_num
  · have hadd : checkedAdd (2 ^ 63 - 1) 1 = some (2 ^ 63) := by
      unfold checkedAdd
      rw [if_pos (by rw [U64_eq]; norm_num)]
      norm_num
    have hdbl : (2 ^ 63 - 1) * 2 % U64 = 2 ^ 64 - 2 := by
      rw [U64_eq]
      norm_num
    simp only [growAmortizedCapTarget, hadd, Option.map_some', Option.some.injEq, hdbl]
    have h8 := minNonZeroCap_le_8 es
    omega
  · simp only [reserveArgBytes]
    refine Nat.lt_of_lt_of_le (Nat.mod_lt _ hU) ?_
    exact le_trans (by rw [U64_eq]; norm_num) (Nat.mul_le_mul_left _ h2)
  · unfold growExactCapTarget checkedAdd
    rw [if_pos (by rw [U64_eq]; norm_num)]
    norm_num
  · simp only [reserveArgBytes]
    refine Nat.lt_of_lt_of_le (Nat.mod_lt _ hU) ?_
    exact le_trans (by rw [U64_eq]; norm_num) (Nat.mul_le_mul_left _ h2)

theorem c10_reserve_byte_overflow_witness :
    (2 : Nat) ≤ 2 ∧
      (∃ cap len additional t₁ t₂,
        needsToGrow cap len additional = true ∧
        len + additional < 2 ^ 64 ∧
        growAmortizedCapTarget 2 cap len additional = some t₁ ∧
        reserveArgBytes 2 t₁ < t₁ * 2 ∧
        growExactCapTarget len additional = some t₂ ∧
        reserveArgBytes 2 t₂ < t₂ * 2) :=
  ⟨by norm_num, c10_reserve_byte_overflow 2 (by norm_num)⟩

/-! ## Claim C4 — bind-time validation -/

/-- C4 counterexample: a buffer of 3 bytes bound to a 2-byte element type
(aligned start, stored length 0) has a nonzero remainder, yet
`try_from_memory` succeeds — the suffix check is commented out in the
source — so "fails whenever the byte length is not an exact multiple of
the element size" is false. -/
theorem c4_cex :
    tryFromMemory 2 1 ⟨0, [0, 0, 0], 0⟩ = Sum.inr ⟨0, [0, 0, 0], 0⟩ ∧
      (3 : Nat) % 2 ≠ 0 := by
  decide

/-- C4 amended: binding fails with `AlignMismatch` (returning the original
untouched capability) exactly when the buffer start is misaligned
(non-empty `align_to` prefix), and with `SizeMismatch` when the stored
length exceeds `buffer bytes / element size`; a byte length that is not a
multiple of the element size does not by itself cause an error — the
remainder bytes are ignored and the capacity is the floor of the
division. -/
theorem c4_amended (elemSize align : Nat) (m : RawMem) :
    (alignPrefixLen align m ≠ 0 →
      tryFromMemory elemSize align m = Sum.inl (m, MemoryConversionError.alignMismatch)) ∧
    (alignPrefixLen align m = 0 → rawCapacity elemSize m < m.len →
      tryFromMemory elemSize align m = Sum.inl (m, MemoryConversionError.sizeMismatch)) ∧
    (alignPrefixLen align m = 0 → m.len ≤ rawCapacity elemSize m →
      tryFromMemory elemSize align m = Sum.inr m ∧
      rawCapacity elemSize m = m.bytes.length / elemSize) := by
  refine ⟨fun hpre => ?_, fun hpre hsz => ?_, fun hpre hsz => ⟨?_, rfl⟩⟩
  · unfold tryFromMemory
    rw [if_pos hpre]
  · unfold tryFromMemory
    rw [if_neg (by omega), if_pos hsz]
  · unfold tryFromMemory
    rw [if_neg (by omega), if_neg (by omega)]

theorem c4_amended_witness :
    ((alignPrefixLen 2 ⟨1, [0, 0], 0⟩ ≠ 0 →
      tryFromMemory 2 2 ⟨1, [0, 0], 0⟩ =
        Sum.inl (⟨1, [0, 0], 0⟩, MemoryConversionError.alignMismatch)) ∧
    (alignPrefixLen 2 ⟨1, [0, 0], 0⟩ = 0 → rawCapacity 2 ⟨1, [0, 0], 0⟩ < 0 →
      tryFromMemory 2 2 ⟨1, [0, 0], 0⟩ =
        Sum.inl (⟨1, [0, 0], 0⟩, MemoryConversionError.sizeMismatch)) ∧
    (alignPrefixLen 2 ⟨1, [0, 0], 0⟩ = 0 → 0 ≤ rawCapacity 2 ⟨1, [0, 0], 0⟩ →
      tryFromMemory 2 2 ⟨1, [0, 0], 0⟩ = Sum.inr ⟨1, [0, 0], 0⟩ ∧
      rawCapacity 2 ⟨1, [0, 0], 0⟩ = (2 : Nat) / 2)) :=
  c4_amended 2 2 ⟨1, [0, 0], 0⟩

/-! ## Claim C9 — reserve/shrink no-op boundary -/

/-- C9 counterexample: at a target exactly equal to the current mapped
length, `MmapFile::reserve` and `MmapFile::shrink` are not no-ops — each
issues a (same-size) `File::set_len` and replaces the mapping — refuting
"reserve with target ≤ capacity (resp. shrink with target ≥ capacity)
performs no backing resize". -/
theorem c9_cex :
    mmapLen ⟨0, List.replicate 16 0, 0, 0⟩ = 16 ∧
      (mmapReserve 16 ⟨0, List.replicate 16 0, 0, 0⟩).setLenCalls = 1 ∧
      (mmapShrink 16 ⟨0, List.replicate 16 0, 0, 0⟩).setLenCalls = 1 ∧
      (mmapReserve 16 ⟨0, List.replicate 16 0, 0, 0⟩).remaps = 1 ∧
      (⟨0, List.replicate 16 0, 0, 0⟩ : MmapSt).setLenCalls = 0 := by
  decide

/-- C9 amended: `reserve(target)` with target strictly below the mapped
length, and `shrink(target)` with target strictly above it, return success
before any I/O and change nothing; at a target exactly equal to the mapped
length both perform a same-size file resize and a remap, leaving the file
bytes (hence contents, stored length and capacity) unchanged but replacing
the mapping.  (Realistic sizes below `2^63` = `isize::MAX`.) -/
theorem c9_amended (m : MmapSt) (c : Nat) (hL : mmapLen m < 2 ^ 63) (hc : c < 2 ^ 63) :
    (c < mmapLen m → mmapReserve c m = m) ∧
    (mmapLen m < c → mmapShrink c m = m) ∧
    ((mmapReserve (mmapLen m) m).file = m.file ∧
      (mmapReserve (mmapLen m) m).setLenCalls = m.setLenCalls + 1 ∧
      (mmapReserve (mmapLen m) m).remaps = m.remaps + 1) ∧
    ((mmapShrink (mmapLen m) m).file = m.file ∧
      (mmapShrink (mmapLen m) m).setLenCalls = m.setLenCalls + 1 ∧
      (mmapShrink (mmapLen m) m).remaps = m.remaps + 1) := by
  have hLU : mmapLen m < U64 := by rw [U64_eq]; omega
  have hzero : wsub (mmapLen m) (mmapLen m) = 0 := by
    rw [wsub_of_le (Nat.le_refl _) hLU]
    omega
  have hneg0 : isizeNeg 0 = false := isizeNeg_of_lt (by norm_num)
  refine ⟨fun hlt => ?_, fun hlt => ?_, ?_, ?_⟩
  · have hws : wsub c (mmapLen m) = U64 - (mmapLen m - c) := wsub_of_lt hlt hLU
    have hneg : isizeNeg (U64 - (mmapLen m - c)) = true :=
      isizeNeg_true (by rw [U64_eq]; omega) (by rw [U64_eq]; omega)
    simp [mmapReserve, hws, hneg]
  · have hws : wsub (mmapLen m) c = U64 - (c - mmapLen m) :=
      wsub_of_lt hlt (by rw [U64_eq]; omega)
    have hneg : isizeNeg (U64 - (c - mmapLen m)) = true :=
      isizeNeg_true (by rw [U64_eq]; omega) (by rw [U64_eq]; omega)
    simp [mmapShrink, hws, hneg]
  · simp [mmapReserve, hzero, hneg0]
  · simp [mmapShrink, hzero, hneg0]

theorem c9_amended_witness :
    mmapLen ⟨0, [0, 0], 0, 0⟩ < 2 ^ 63 ∧ (1 : Nat) < 2 ^ 63 ∧
      ((1 < mmapLen ⟨0, [0, 0], 0, 0⟩ → mmapReserve 1 ⟨0, [0, 0], 0, 0⟩ = ⟨0, [0, 0], 0, 0⟩) ∧
      (mmapLen ⟨0, [0, 0], 0, 0⟩ < 1 → mmapShrink 1 ⟨0, [0, 0], 0, 0⟩ = ⟨0, [0, 0], 0, 0⟩) ∧
      ((mmapReserve (mmapLen ⟨0, [0, 0], 0, 0⟩) ⟨0, [0, 0], 0, 0⟩).file = [0, 0] ∧
        (mmapReserve (mmapLen ⟨0, [0, 0], 0, 0⟩) ⟨0, [0, 0], 0, 0⟩).setLenCalls = 0 + 1 ∧
        (mmapReserve (mmapLen ⟨0, [0, 0], 0, 0⟩) ⟨0, [0, 0], 0, 0⟩).remaps = 0 + 1) ∧
      ((mmapShrink (mmapLen ⟨0, [0, 0], 0, 0⟩) ⟨0, [0, 0], 0, 0⟩).file = [0, 0] ∧
        (mmapShrink (mmapLen ⟨0, [0, 0], 0, 0⟩) ⟨0, [0, 0], 0, 0⟩).setLenCalls = 0 + 1 ∧
        (mmapShrink (mmapLen ⟨0, [0, 0], 0, 0⟩) ⟨0, [0, 0], 0, 0⟩).remaps = 0 + 1)) :=
  ⟨by decide, by decide, c9_amended ⟨0, [0, 0], 0, 0⟩ 1 (by decide) (by decide)⟩

/-! ## Claim C3 — push failure on grow -/

/-- C3 counterexample: on a full container whose backing I/O fails,
`push` does not surface a typed error — `reserve_for_push(..).unwrap()`
panics — refuting "push surfaces that failure to the caller as a typed
error (not an abort/panic)". -/
theorem c3_cex :
    push 8 (5 : Nat) ⟨[], 0, false⟩ = Outcome.panik ⟨[], 0, false⟩ ∧
      isTypedErr (push 8 (5 : Nat) ⟨[], 0, false⟩) = false := by
  decide

/-- C3 amended: when `push` must grow (`length == capacity`) and the
capability's grow fails with an I/O error, the failure reaches the caller
as a panic (the source `.unwrap()`s the reserve result), not as a typed
error; the container's prior length and contents are unchanged at that
point, the memory-capability mutation having not committed.  The typed
error itself is only available from `try_reserve`, which returns it with
the state equally unchanged. -/
theorem c3_amended {α : Type} [Inhabited α] (es : Nat) (v : α) (s : MState α)
    (hfull : s.len = s.buf.length) (hio : s.ioOk = false) (hov : s.len + 1 < 2 ^ 64) :
    push es v s = Outcome.panik s ∧
      isTypedErr (push es v s) = false ∧
      tryReserve es 1 s = Outcome.err s := by
  have hLU : s.len + 1 < U64 := by rw [U64_eq]; omega
  obtain ⟨target, htarget, hge⟩ :
      ∃ t, growAmortizedCapTarget es s.buf.length s.len 1 = some t ∧ s.len + 1 ≤ t := by
    have hadd : checkedAdd s.len 1 = some (s.len + 1) := by
      unfold checkedAdd
      rw [if_pos hLU]
    refine ⟨max (minNonZeroCap es) (max (s.buf.length * 2 % U64) (s.len + 1)), ?_, ?_⟩
    · unfold growAmortizedCapTarget
      rw [hadd]
      rfl
    · exact le_trans (le_max_right _ _) (le_max_right _ _)
  have hgrow : growAmortized es s.len 1 s = Outcome.err s := by
    unfold growAmortized
    rw [htarget]
    exact memReserve_err (by omega) hio
  have hpush : push es v s = Outcome.panik s := by
    unfold push
    rw [if_pos hfull, hgrow]
  refine ⟨hpush, by rw [hpush]; rfl, ?_⟩
  have hneed : needsToGrow s.buf.length s.len 1 = true := by
    rw [needsToGrow_eq (by omega) (by rw [U64_eq]; omega)]
    simp
    omega
  unfold tryReserve
  rw [hneed]
  simpa using hgrow

theorem c3_amended_witness :
    (⟨[], 0, false⟩ : MState Nat).len = (⟨[], 0, false⟩ : MState Nat).buf.length ∧
      (⟨[], 0, false⟩ : MState Nat).ioOk = false ∧
      (⟨[], 0, false⟩ : MState Nat).len + 1 < 2 ^ 64 ∧
      (push 3 (7 : Nat) ⟨[], 0, false⟩ = Outcome.panik ⟨[], 0, false⟩ ∧
        isTypedErr (push 3 (7 : Nat) ⟨[], 0, false⟩) = false ∧
        tryReserve 3 1 (⟨[], 0, false⟩ : MState Nat) = Outcome.err ⟨[], 0, false⟩) :=
  ⟨rfl, rfl, by decide, c3_amended 3 7 ⟨[], 0, false⟩ rfl rfl (by decide)⟩

/-! ### List surgery lemmas for the scan loops -/

theorem take_set_of_le {α : Type} (l : List α) (j m : Nat) (a : α) (h : m ≤ j) :
    (l.set j a).take m = l.take m := by
  apply List.ext_getElem
  · simp [List.length_set]
  · intro k hk1 hk2
    have hk : k < m := by
      simp [List.length_take] at hk1
      omega
    rw [List.getElem_take, List.getElem_take, List.getElem_set]
    rw [if_neg (by omega)]

theorem drop_set_of_lt {α : Type} (l : List α) (j m : Nat) (a : α) (h : j < m) :
    (l.set j a).drop m = l.drop m := by
  rw [List.drop_set, if_pos h]

theorem take_set_succ {α : Type} (l : List α) (j : Nat) (a : α) (h : j < l.length) :
    (l.set j a).take (j + 1) = l.take j ++ [a] := by
  have hlen : (l.take j).length = j := by
    simp [List.length_take]
    omega
  rw [List.set_eq_take_append_cons_drop, if_pos h]
  calc (l.take j ++ a :: l.drop (j + 1)).take (j + 1)
      = (l.take j ++ a :: l.drop (j + 1)).take ((l.take j).length + 1) := by rw [hlen]
    _ = l.take j ++ (a :: l.drop (j + 1)).take 1 := List.take_append 1
    _ = l.take j ++ [a] := by rw [List.take_succ_cons, List.take_zero]

theorem take_succ_getD {α : Type} [Inhabited α] (l : List α) (j : Nat) (h : j < l.length) :
    l.take (j + 1) = l.take j ++ [l.getD j default] := by
  rw [List.take_succ, List.getElem?_eq_getElem h, List.getD_eq_getElem _ _ h]
  rfl

theorem length_drop_take {α : Type} {l : List α} {i k : Nat} (h : i + k ≤ l.length) :
    ((l.drop i).take k).length = k := by
  simp [List.length_take, List.length_drop]
  omega

theorem drop_take_cons {α : Type} [Inhabited α] {buf : List α} {i k : Nat}
    (h : i < buf.length) :
    (buf.drop i).take (k + 1) = buf.getD i default :: (buf.drop (i + 1)).take k := by
  rw [List.drop_eq_getElem_cons h, List.getD_eq_getElem _ _ h, List.take_succ_cons]

theorem copyWithin_length {α : Type} {buf : List α} {dst src cnt : Nat}
    (h1 : dst + cnt ≤ buf.length) (h2 : src + cnt ≤ buf.length) :
    (copyWithin buf dst src cnt).length = buf.length := by
  simp [copyWithin, List.length_take, List.length_drop]
  omega

theorem copyWithin_take {α : Type} {buf : List α} {dst src cnt : Nat}
    (h1 : dst ≤ buf.length) (h2 : src + cnt ≤ buf.length) :
    (copyWithin buf dst src cnt).take (dst + cnt) = buf.take dst ++ (buf.drop src).take cnt := by
  have hd : (buf.take dst).length = dst := by
    simp [List.length_take]
    omega
  have hc : ((buf.drop src).take cnt).length = cnt := length_drop_take h2
  unfold copyWithin
  rw [List.append_assoc, List.take_append_eq_append_take, hd,
    List.take_append_eq_append_take, hc]
  have h0 : dst + cnt - dst - cnt = 0 := by omega
  have e1 : (dst + cnt) ⊓ dst = dst := by omega
  have e2 : (dst + cnt - dst) ⊓ cnt = cnt := by omega
  rw [h0, List.take_zero, List.append_nil, List.take_take, List.take_take, e1, e2]

/-! ### scanSpec lemmas -/

theorem scanSpec_sizes {α : Type} (f : α → Option Bool) (l : List α) :
    (scanSpec f l).kept.length + (scanSpec f l).deleted + (scanSpec f l).unvisited.length
      = l.length := by
  induction l with
  | nil => simp [scanSpec]
  | cons x xs ih =>
    simp only [scanSpec]
    cases f x with
    | none => simp
    | some b =>
      cases b <;> simp only [] <;> simp [List.length_cons] <;> omega

theorem scanSpec_pure {α : Type} (p : α → Bool) (l : List α) :
    scanSpec (fun a => some (p a)) l =
      ⟨l.filter p, l.countP (fun a => !p a), [], false⟩ := by
  induction l with
  | nil => simp [scanSpec, List.countP_nil]
  | cons x xs ih =>
    simp only [scanSpec, ih, List.filter_cons, List.countP_cons]
    cases hp : p x <;> simp [hp]

theorem scanSpec_cons_none {α : Type} {f : α → Option Bool} {x : α} {xs : List α}
    (hf : f x = none) : scanSpec f (x :: xs) = ⟨[], 0, x :: xs, true⟩ := by
  simp [scanSpec, hf]

theorem scanSpec_cons_true {α : Type} {f : α → Option Bool} {x : α} {xs : List α}
    (hf : f x = some true) :
    scanSpec f (x :: xs) = ⟨x :: (scanSpec f xs).kept, (scanSpec f xs).deleted,
      (scanSpec f xs).unvisited, (scanSpec f xs).aborted⟩ := by
  simp [scanSpec, hf]

theorem scanSpec_cons_false {α : Type} {f : α → Option Bool} {x : α} {xs : List α}
    (hf : f x = some false) :
    scanSpec f (x :: xs) = ⟨(scanSpec f xs).kept, (scanSpec f xs).deleted + 1,
      (scanSpec f xs).unvisited, (scanSpec f xs).aborted⟩ := by
  simp [scanSpec, hf]

theorem retainLoop_zero {α : Type} [Inhabited α] (f : α → Option Bool) (n : Nat)
    (buf : List α) (i d : Nat) : retainLoop f n 0 buf i d = ⟨buf, i, d, false⟩ := rfl

theorem retainLoop_stop {α : Type} [Inhabited α] {f : α → Option Bool} {n : Nat}
    {fuel : Nat} {buf : List α} {i d : Nat} (hin : ¬ i < n) :
    retainLoop f n (fuel + 1) buf i d = ⟨buf, i, d, false⟩ := by
  simp [retainLoop, hin]

theorem retainLoop_succ_none {α : Type} [Inhabited α] {f : α → Option Bool} {n : Nat}
    {fuel : Nat} {buf : List α} {i d : Nat} (hin : i < n)
    (hf : f (buf.getD i default) = none) :
    retainLoop f n (fuel + 1) buf i d = ⟨buf, i, d, true⟩ := by
  simp only [retainLoop]
  rw [if_pos hin, hf]

theorem retainLoop_succ_false {α : Type} [Inhabited α] {f : α → Option Bool} {n : Nat}
    {fuel : Nat} {buf : List α} {i d : Nat} (hin : i < n)
    (hf : f (buf.getD i default) = some false) :
    retainLoop f n (fuel + 1) buf i d = retainLoop f n fuel buf (i + 1) (d + 1) := by
  simp only [retainLoop]
  rw [if_pos hin, hf]

theorem retainLoop_succ_true {α : Type} [Inhabited α] {f : α → Option Bool} {n : Nat}
    {fuel : Nat} {buf : List α} {i d : Nat} (hin : i < n)
    (hf : f (buf.getD i default) = some true) :
    retainLoop f n (fuel + 1) buf i d =
      retainLoop f n fuel
        (if 0 < d then buf.set (i - d) (buf.getD i default) else buf) (i + 1) d := by
  simp only [retainLoop]
  rw [if_pos hin, hf]

theorem retainLoop_spec {α : Type} [Inhabited α] (f : α → Option Bool) (n : Nat) :
    ∀ (fuel : Nat) (buf : List α) (i d : Nat), d ≤ i → i ≤ n → n ≤ buf.length →
      n - i ≤ fuel →
      ∃ buf',
        retainLoop f n fuel buf i d =
          ⟨buf', n - (scanSpec f ((buf.drop i).take (n - i))).unvisited.length,
            d + (scanSpec f ((buf.drop i).take (n - i))).deleted,
            (scanSpec f ((buf.drop i).take (n - i))).aborted⟩ ∧
        buf'.length = buf.length ∧
        buf'.take (n - (scanSpec f ((buf.drop i).take (n - i))).unvisited.length
            - (d + (scanSpec f ((buf.drop i).take (n - i))).deleted))
          = buf.take (i - d) ++ (scanSpec f ((buf.drop i).take (n - i))).kept ∧
        (buf'.drop (n - (scanSpec f ((buf.drop i).take (n - i))).unvisited.length)).take
            (scanSpec f ((buf.drop i).take (n - i))).unvisited.length
          = (scanSpec f ((buf.drop i).take (n - i))).unvisited := by
  intro fuel
  induction fuel with
  | zero =>
    intro buf i d hd hi hn hfuel
    have hin : i = n := by omega
    subst hin
    simp only [Nat.sub_self, List.take_zero, scanSpec, retainLoop_zero]
    exact ⟨buf, by simp, rfl, by simp, by simp⟩
  | succ fuel ih =>
    intro buf i d hd hi hn hfuel
    by_cases hin : i < n
    · have hibuf : i < buf.length := by omega
      have hsplit : n - i = (n - (i + 1)) + 1 := by omega
      have hrest : (buf.drop i).take (n - i)
          = buf.getD i default :: (buf.drop (i + 1)).take (n - (i + 1)) := by
        rw [hsplit, drop_take_cons hibuf]
      have hrestlen : ((buf.drop (i + 1)).take (n - (i + 1))).length = n - (i + 1) :=
        length_drop_take (by omega)
      rw [hrest]
      cases hf : f (buf.getD i default) with
      | none =>
        rw [retainLoop_succ_none hin hf, scanSpec_cons_none hf]
        have hlen : (buf.getD i default :: (buf.drop (i + 1)).take (n - (i + 1))).length
            = n - i := by
          simp [hrestlen]
          omega
        refine ⟨buf, ?_, rfl, ?_, ?_⟩
        · rw [hlen]
          have h1 : n - (n - i) = i := by omega
          have h2 : d + 0 = d := by omega
          rw [h1, h2]
        · simp only [hlen]
          have h1 : n - (n - i) - (d + 0) = i - d := by omega
          rw [h1, List.append_nil]
        · simp only [hlen]
          have h1 : n - (n - i) = i := by omega
          rw [h1]
          exact hrest
      | some b =>
        cases b with
        | false =>
          rw [retainLoop_succ_false hin hf, scanSpec_cons_false hf]
          obtain ⟨buf', heq, hlen, htake, hdrop⟩ :=
            ih buf (i + 1) (d + 1) (by omega) (by omega) hn (by omega)
          refine ⟨buf', ?_, hlen, ?_, ?_⟩
          · rw [heq]
            have : d + 1 + (scanSpec f ((buf.drop (i + 1)).take (n - (i + 1)))).deleted
                = d + ((scanSpec f ((buf.drop (i + 1)).take (n - (i + 1)))).deleted + 1) := by
              omega
            rw [this]
          · have harg : n - (scanSpec f ((buf.drop (i + 1)).take (n - (i + 1)))).unvisited.length
                - (d + ((scanSpec f ((buf.drop (i + 1)).take (n - (i + 1)))).deleted + 1))
                = n - (scanSpec f ((buf.drop (i + 1)).take (n - (i + 1)))).unvisited.length
                - (d + 1 + (scanSpec f ((buf.drop (i + 1)).take (n - (i + 1)))).deleted) := by
              omega
            have hidx : i + 1 - (d + 1) = i - d := by omega
            rw [harg, htake, hidx]
          · exact hdrop
        | true =>
          rw [retainLoop_succ_true hin hf, scanSpec_cons_true hf]
          set cur := buf.getD i default with hcur
          set buf2 := if 0 < d then buf.set (i - d) cur else buf with hbuf2
          have hlen2 : buf2.length = buf.length := by
            rw [hbuf2]
            split <;> simp [List.length_set]
          have hdrop2 : buf2.drop (i + 1) = buf.drop (i + 1) := by
            rw [hbuf2]
            split
            · exact drop_set_of_lt _ _ _ _ (by omega)
            · rfl
          have htake2 : buf2.take (i + 1 - d) = buf.take (i - d) ++ [cur] := by
            rw [hbuf2]
            split
            · have : i + 1 - d = (i - d) + 1 := by omega
              rw [this, take_set_succ _ _ _ (by omega)]
            · rename_i hd0
              have hd' : d = 0 := by omega
              subst hd'
              have hts := take_succ_getD buf i hibuf
              rw [← hcur] at hts
              rw [Nat.sub_zero]
              exact hts
          obtain ⟨buf', heq, hlen, htake, hdrop⟩ :=
            ih buf2 (i + 1) d (by omega) (by omega) (by omega) (by omega)
          rw [hdrop2] at heq htake hdrop
          refine ⟨buf', heq, by rw [hlen, hlen2], ?_, hdrop⟩
          rw [htake, htake2]
          simp [List.append_assoc]
    · have hieq : i = n := by omega
      subst hieq
      rw [retainLoop_stop hin]
      simp only [Nat.sub_self, List.take_zero, scanSpec]
      exact ⟨buf, by simp, rfl, by simp, by simp⟩

theorem retainMut_run {α : Type} [Inhabited α] (f : α → Option Bool) (s : MState α)
    (h : s.len ≤ s.buf.length) :
    ∃ s',
      retainMut f s
        = (if (scanSpec f (asSlice s)).aborted then Outcome.panik s' else Outcome.ok s') ∧
      asSlice s' = (scanSpec f (asSlice s)).kept ++ (scanSpec f (asSlice s)).unvisited ∧
      s'.len = s.len - (scanSpec f (asSlice s)).deleted ∧
      s'.buf.length = s.buf.length ∧
      s'.ioOk = s.ioOk := by
  have hslice0 : (s.buf.drop 0).take (s.len - 0) = asSlice s := by simp [asSlice]
  obtain ⟨buf', heq, hblen, htake, hdrop⟩ :=
    retainLoop_spec f s.len s.len s.buf 0 0 (Nat.le_refl 0) (Nat.zero_le _) h (by omega)
  rw [hslice0] at heq htake hdrop
  simp only [Nat.zero_add, Nat.sub_zero, List.take_zero, List.nil_append] at heq htake hdrop
  have hsz := scanSpec_sizes f (asSlice s)
  have hsl : (asSlice s).length = s.len := by
    simp only [asSlice, List.length_take]
    omega
  rw [hsl] at hsz
  -- the backshifted buffer, in both the deleted and no-deletion cases
  have hkey : ∀ buf2 : List α,
      (0 < (scanSpec f (asSlice s)).deleted →
        buf2 = copyWithin buf'
          (s.len - (scanSpec f (asSlice s)).unvisited.length - (scanSpec f (asSlice s)).deleted)
          (s.len - (scanSpec f (asSlice s)).unvisited.length)
          (s.len - (s.len - (scanSpec f (asSlice s)).unvisited.length))) →
      ((scanSpec f (asSlice s)).deleted = 0 → buf2 = buf') →
      buf2.length = s.buf.length ∧
        buf2.take (s.len - (scanSpec f (asSlice s)).deleted)
          = (scanSpec f (asSlice s)).kept ++ (scanSpec f (asSlice s)).unvisited := by
    intro buf2 hpos hzero
    by_cases hdel : 0 < (scanSpec f (asSlice s)).deleted
    · rw [hpos hdel]
      have e1 : s.len - (scanSpec f (asSlice s)).unvisited.length
          - (scanSpec f (asSlice s)).deleted = (scanSpec f (asSlice s)).kept.length := by
        omega
      have e2 : s.len - (s.len - (scanSpec f (asSlice s)).unvisited.length)
          = (scanSpec f (asSlice s)).unvisited.length := by
        omega
      have e3 : s.len - (scanSpec f (asSlice s)).deleted
          = (scanSpec f (asSlice s)).kept.length + (scanSpec f (asSlice s)).unvisited.length := by
        omega
      rw [e1, e2, e3]
      constructor
      · rw [copyWithin_length (by omega) (by omega)]
        exact hblen
      · rw [copyWithin_take (by omega) (by omega)]
        have e4 : (scanSpec f (asSlice s)).kept.length
            = s.len - (scanSpec f (asSlice s)).unvisited.length
              - (scanSpec f (asSlice s)).deleted := by omega
        rw [e4, htake, hdrop]
    · have hdel0 : (scanSpec f (asSlice s)).deleted = 0 := by omega
      rw [hzero hdel0, hdel0, Nat.sub_zero]
      refine ⟨hblen, ?_⟩
      rw [hdel0, Nat.sub_zero] at htake
      have e1 : s.len = (s.len - (scanSpec f (asSlice s)).unvisited.length)
          + (scanSpec f (asSlice s)).unvisited.length := by omega
      rw [e1, List.take_add, htake, hdrop]
  unfold retainMut
  dsimp only
  rw [heq]
  dsimp only
  set buf2c := (if 0 < (scanSpec f (asSlice s)).deleted then
      copyWithin buf'
        (s.len - (scanSpec f (asSlice s)).unvisited.length - (scanSpec f (asSlice s)).deleted)
        (s.len - (scanSpec f (asSlice s)).unvisited.length)
        (s.len - (s.len - (scanSpec f (asSlice s)).unvisited.length))
    else buf') with hbuf2c
  obtain ⟨hkl, hkt⟩ := hkey buf2c
    (fun hdel => by rw [hbuf2c, if_pos hdel]) (fun hdel => by rw [hbuf2c, if_neg (by omega)])
  have hok : setLenOp (s.len - (scanSpec f (asSlice s)).deleted)
      (MState.mk buf2c 0 s.ioOk)
      = Outcome.ok (MState.mk buf2c (s.len - (scanSpec f (asSlice s)).deleted) s.ioOk) := by
    unfold setLenOp
    rw [if_neg (show ¬ (MState.mk buf2c 0 s.ioOk).buf.length
        < s.len - (scanSpec f (asSlice s)).deleted by
      change ¬ buf2c.length < _
      omega)]
  refine ⟨MState.mk buf2c (s.len - (scanSpec f (asSlice s)).deleted) s.ioOk,
    ?_, ?_, rfl, hkl, rfl⟩
  · rw [hok]
  · simpa [asSlice] using hkt

theorem length_filter_add_countP_not {α : Type} (p : α → Bool) (l : List α) :
    (l.filter p).length + l.countP (fun a => !p a) = l.length := by
  induction l with
  | nil => simp
  | cons x xs ih =>
    rw [List.filter_cons, List.countP_cons]
    cases hp : p x <;> simp [hp] <;> omega

/-! ## Claim C7 — retain is filter -/

/-- C7: for every container and every non-aborting predicate `p`,
`retain(p)` (and `retain_mut`) leaves exactly the subsequence of original
elements satisfying `p`, in their original relative order, with the length
equal to their count — retain is filtering by `p`. -/
theorem c7_retain_filter {α : Type} [Inhabited α] (p : α → Bool) (s : MState α)
    (h : s.len ≤ s.buf.length) :
    ∃ s',
      retainMut (fun a => some (p a)) s = Outcome.ok s' ∧
      retainOp (fun a => some (p a)) s = Outcome.ok s' ∧
      asSlice s' = (asSlice s).filter p ∧
      s'.len = ((asSlice s).filter p).length := by
  obtain ⟨s', hrun, hslice, hlen, _, _⟩ := retainMut_run (fun a => some (p a)) s h
  rw [scanSpec_pure] at hrun hslice hlen
  simp only [Bool.false_eq_true, if_false] at hrun
  have hsl : (asSlice s).length = s.len := by
    simp only [asSlice, List.length_take]
    omega
  have hcount := length_filter_add_countP_not p (asSlice s)
  refine ⟨s', hrun, by rw [retainOp, hrun], by simpa using hslice, ?_⟩
  simp only at hlen
  omega

theorem c7_retain_filter_witness :
    (⟨[1, 2, 3, 4, 9], 4, true⟩ : MState Nat).len
        ≤ (⟨[1, 2, 3, 4, 9], 4, true⟩ : MState Nat).buf.length ∧
      (∃ s', retainMut (fun a => some (decide (a % 2 = 0))) ⟨[1, 2, 3, 4, 9], 4, true⟩
          = Outcome.ok s' ∧
        retainOp (fun a => some (decide (a % 2 = 0))) ⟨[1, 2, 3, 4, 9], 4, true⟩
          = Outcome.ok s' ∧
        asSlice s' = (asSlice (⟨[1, 2, 3, 4, 9], 4, true⟩ : MState Nat)).filter
          (fun a => decide (a % 2 = 0)) ∧
        s'.len = ((asSlice (⟨[1, 2, 3, 4, 9], 4, true⟩ : MState Nat)).filter
          (fun a => decide (a % 2 = 0))).length) :=
  ⟨by decide, c7_retain_filter (fun a => decide (a % 2 = 0)) ⟨[1, 2, 3, 4, 9], 4, true⟩
    (by decide)⟩

/-! ## Claim C2 — state after a predicate abort in retain -/

/-- C2 counterexample: on `[0, 10, 20]` with a predicate that rejects `0`
and then aborts on `10`, the loop stops with `processed = 1`, `deleted = 1`
(the predicate has been invoked on 2 elements, having completed on 1, with
1 rejection), and the guard leaves the container with length `2 = n - d`
(the unvisited `10, 20` survive), not `k - d` — which would be `1` counting
the aborting invocation in `k`, or `0` not counting it. -/
theorem c2_cex :
    retainLoop (fun x => if x = 0 then some false else none) 3 3 [0, 10, 20] 0 0
        = ⟨[0, 10, 20], 1, 1, true⟩ ∧
      retainMut (fun x => if x = 0 then some false else none)
          (⟨[0, 10, 20], 3, true⟩ : MState Nat)
        = Outcome.panik ⟨[10, 20, 20], 2, true⟩ ∧
      (2 : Nat) ≠ 2 - 1 ∧ (2 : Nat) ≠ 1 - 1 := by
  decide

/-- C2 amended: if the predicate passed to `retain`/`retain_mut` aborts
after completing on `k` of the original `n` elements with `d` rejections,
then before the abort propagates the not-yet-visited elements are shifted
down to close the holes and the length is set, exactly once, to
`n - d` — the `k - d` kept elements plus the `n - k` unvisited ones — not
to `k - d`. -/
theorem c2_amended {α : Type} [Inhabited α] (f : α → Option Bool) (s : MState α)
    (h : s.len ≤ s.buf.length) (ha : (scanSpec f (asSlice s)).aborted = true) :
    ∃ s',
      retainMut f s = Outcome.panik s' ∧
      asSlice s' = (scanSpec f (asSlice s)).kept ++ (scanSpec f (asSlice s)).unvisited ∧
      s'.len = s.len - (scanSpec f (asSlice s)).deleted ∧
      s'.len = (scanSpec f (asSlice s)).kept.length
        + (scanSpec f (asSlice s)).unvisited.length := by
  obtain ⟨s', hrun, hslice, hlen, _, _⟩ := retainMut_run f s h
  rw [ha] at hrun
  simp only [if_true] at hrun
  have hsz := scanSpec_sizes f (asSlice s)
  have hsl : (asSlice s).length = s.len := by
    simp only [asSlice, List.length_take]
    omega
  exact ⟨s', hrun, hslice, hlen, by omega⟩

theorem c2_amended_witness :
    (⟨[0, 10, 20], 3, true⟩ : MState Nat).len
        ≤ (⟨[0, 10, 20], 3, true⟩ : MState Nat).buf.length ∧
      (scanSpec (fun x => if x = 0 then some false else none)
        (asSlice (⟨[0, 10, 20], 3, true⟩ : MState Nat))).aborted = true ∧
      (∃ s', retainMut (fun x => if x = 0 then some false else none)
            (⟨[0, 10, 20], 3, true⟩ : MState Nat) = Outcome.panik s' ∧
        asSlice s'
          = (scanSpec (fun x => if x = 0 then some false else none)
              (asSlice (⟨[0, 10, 20], 3, true⟩ : MState Nat))).kept
            ++ (scanSpec (fun x => if x = 0 then some false else none)
              (asSlice (⟨[0, 10, 20], 3, true⟩ : MState Nat))).unvisited ∧
        s'.len = (⟨[0, 10, 20], 3, true⟩ : MState Nat).len
          - (scanSpec (fun x => if x = 0 then some false else none)
              (asSlice (⟨[0, 10, 20], 3, true⟩ : MState Nat))).deleted ∧
        s'.len = (scanSpec (fun x => if x = 0 then some false else none)
              (asSlice (⟨[0, 10, 20], 3, true⟩ : MState Nat))).kept.length
          + (scanSpec (fun x => if x = 0 then some false else none)
              (asSlice (⟨[0, 10, 20], 3, true⟩ : MState Nat))).unvisited.length) :=
  ⟨by decide, by decide,
    c2_amended (fun x => if x = 0 then some false else none) ⟨[0, 10, 20], 3, true⟩
      (by decide) (by decide)⟩

/-! ### Outcome-shape lemmas for the grow/shrink plumbing -/

theorem wsub_self (a : Nat) : wsub a a = 0 := by
  have h : a % U64 < U64 := Nat.mod_lt _ (by rw [U64_eq]; norm_num)
  unfold wsub
  have : a % U64 + (U64 - a % U64) = U64 := by omega
  rw [this, Nat.mod_self]

theorem memReserve_err_eq {α : Type} [Inhabited α] {cap : Nat} {s t : MState α}
    (h : memReserve cap s = Outcome.err t) : t = s := by
  unfold memReserve at h
  split at h
  · cases h
  · split at h
    · cases h
    · cases h
      rfl

theorem memReserve_not_panik {α : Type} [Inhabited α] {cap : Nat} {s t : MState α}
    (h : memReserve cap s = Outcome.panik t) : False := by
  unfold memReserve at h
  split at h
  · cases h
  · split at h <;> cases h

theorem memShrink_err_eq {α : Type} {cap : Nat} {s t : MState α}
    (h : memShrink cap s = Outcome.err t) : t = s := by
  unfold memShrink at h
  split at h
  · cases h
  · split at h
    · cases h
    · cases h
      rfl

theorem memShrink_not_panik {α : Type} {cap : Nat} {s t : MState α}
    (h : memShrink cap s = Outcome.panik t) : False := by
  unfold memShrink at h
  split at h
  · cases h
  · split at h <;> cases h

theorem growAmortized_err_eq {α : Type} [Inhabited α] {es len additional : Nat}
    {s t : MState α} (h : growAmortized es len additional s = Outcome.err t) : t = s := by
  unfold growAmortized at h
  split at h
  · cases h
  · exact memReserve_err_eq h

theorem growAmortized_panik_eq {α : Type} [Inhabited α] {es len additional : Nat}
    {s t : MState α} (h : growAmortized es len additional s = Outcome.panik t) : t = s := by
  unfold growAmortized at h
  split at h
  · cases h
    rfl
  · exact absurd h memReserve_not_panik

theorem growExact_err_eq {α : Type} [Inhabited α] {len additional : Nat}
    {s t : MState α} (h : growExact len additional s = Outcome.err t) : t = s := by
  unfold growExact at h
  split at h
  · cases h
  · exact memReserve_err_eq h

theorem growExact_panik_eq {α : Type} [Inhabited α] {len additional : Nat}
    {s t : MState α} (h : growExact len additional s = Outcome.panik t) : t = s := by
  unfold growExact at h
  split at h
  · cases h
    rfl
  · exact absurd h memReserve_not_panik

theorem tryReserve_inv {α : Type} [Inhabited α] (es additional : Nat) (s : MState α)
    (h : s.len ≤ s.buf.length) :
    (outState (tryReserve es additional s)).len
      ≤ (outState (tryReserve es additional s)).buf.length := by
  unfold tryReserve
  split
  · cases hg : growAmortized es s.len additional s with
    | ok t =>
      obtain ⟨h1, h2, h3, h4⟩ := growAmortized_ok hg
      simp only [outState]
      omega
    | err t =>
      have ht := growAmortized_err_eq hg
      subst ht
      simpa [outState] using h
    | panik t =>
      have ht := growAmortized_panik_eq hg
      subst ht
      simpa [outState] using h
  · simpa [outState] using h

theorem reserveOp_inv {α : Type} [Inhabited α] (es additional : Nat) (s : MState α)
    (h : s.len ≤ s.buf.length) :
    (outState (reserveOp es additional s)).len
      ≤ (outState (reserveOp es additional s)).buf.length := by
  have hx := tryReserve_inv es additional s h
  unfold reserveOp
  cases ht : tryReserve es additional s with
  | ok t => rw [ht] at hx; simpa [outState] using hx
  | err t => rw [ht] at hx; simpa [outState] using hx
  | panik t => rw [ht] at hx; simpa [outState] using hx

theorem tryReserveExact_inv {α : Type} [Inhabited α] (additional : Nat) (s : MState α)
    (h : s.len ≤ s.buf.length) :
    (outState (tryReserveExact additional s)).len
      ≤ (outState (tryReserveExact additional s)).buf.length := by
  unfold tryReserveExact
  split
  · cases hg : growExact s.len additional s with
    | ok t =>
      obtain ⟨h1, h2, h3, h4⟩ := growExact_ok hg
      simp only [outState]
      omega
    | err t =>
      have ht := growExact_err_eq hg
      subst ht
      simpa [outState] using h
    | panik t =>
      have ht := growExact_panik_eq hg
      subst ht
      simpa [outState] using h
  · simpa [outState] using h

theorem reserveExactOp_inv {α : Type} [Inhabited α] (additional : Nat) (s : MState α)
    (h : s.len ≤ s.buf.length) :
    (outState (reserveExactOp additional s)).len
      ≤ (outState (reserveExactOp additional s)).buf.length := by
  have hx := tryReserveExact_inv additional s h
  unfold reserveExactOp
  cases ht : tryReserveExact additional s with
  | ok t => rw [ht] at hx; simpa [outState] using hx
  | err t => rw [ht] at hx; simpa [outState] using hx
  | panik t => rw [ht] at hx; simpa [outState] using hx

theorem shrinkToFit_inv {α : Type} (s : MState α) (h : s.len ≤ s.buf.length) :
    (outState (shrinkToFit s)).len ≤ (outState (shrinkToFit s)).buf.length := by
  unfold shrinkToFit
  split
  · cases hm : memShrink s.len s with
    | ok t =>
      obtain ⟨h1, h2, h3⟩ := memShrink_ok hm
      rcases h3 with h3 | rfl
      · simp only [outState]
        omega
      · simpa [outState] using h
    | err t =>
      have ht := memShrink_err_eq hm
      subst ht
      simpa [outState] using h
    | panik t => exact absurd hm memShrink_not_panik
  · simpa [outState] using h

theorem shrinkTo_inv {α : Type} (minCapacity : Nat) (s : MState α)
    (h : s.len ≤ s.buf.length) :
    (outState (shrinkTo minCapacity s)).len
      ≤ (outState (shrinkTo minCapacity s)).buf.length := by
  unfold shrinkTo
  split
  · cases hm : memShrink (max s.len minCapacity) s with
    | ok t =>
      obtain ⟨h1, h2, h3⟩ := memShrink_ok hm
      rcases h3 with h3 | rfl
      · simp only [outState]
        omega
      · simpa [outState] using h
    | err t =>
      have ht := memShrink_err_eq hm
      subst ht
      simpa [outState] using h
    | panik t => exact absurd hm memShrink_not_panik
  · simpa [outState] using h

theorem setLenOp_inv {α : Type} (n : Nat) (s : MState α) (h : s.len ≤ s.buf.length) :
    (outState (setLenOp n s)).len ≤ (outState (setLenOp n s)).buf.length := by
  unfold setLenOp
  split
  · simpa [outState] using h
  · simp only [outState]
    omega

theorem reserveOp_ok_full {α : Type} [Inhabited α] {es : Nat} {s t : MState α}
    (hfull : s.len = s.buf.length) (h : reserveOp es 1 s = Outcome.ok t) :
    t.len = s.len ∧ s.len + 1 ≤ t.buf.length := by
  have hneed : needsToGrow s.buf.length s.len 1 = true := by
    rw [needsToGrow, hfull, wsub_self]
    rfl
  unfold reserveOp tryReserve at h
  rw [hneed] at h
  simp only [if_true] at h
  cases hg : growAmortized es s.len 1 s with
  | ok u =>
    rw [hg] at h
    cases h
    obtain ⟨h1, h2, h3, h4⟩ := growAmortized_ok hg
    exact ⟨h1, by omega⟩
  | err u => rw [hg] at h; cases h
  | panik u => rw [hg] at h; cases h

theorem dedupLoop_zero {α : Type} [Inhabited α] (f : α → α → Option Bool) (len : Nat)
    (buf : List α) (r w : Nat) : dedupLoop f len 0 buf r w = ⟨buf, r, w, false⟩ := rfl

theorem dedupLoop_stop {α : Type} [Inhabited α] {f : α → α → Option Bool} {len fuel : Nat}
    {buf : List α} {r w : Nat} (hr : ¬ r < len) :
    dedupLoop f len (fuel + 1) buf r w = ⟨buf, r, w, false⟩ := by
  simp only [dedupLoop]
  rw [if_neg hr]

theorem dedupLoop_succ_none {α : Type} [Inhabited α] {f : α → α → Option Bool}
    {len fuel : Nat} {buf : List α} {r w : Nat} (hr : r < len)
    (hf : f (buf.getD r default) (buf.getD (w - 1) default) = none) :
    dedupLoop f len (fuel + 1) buf r w = ⟨buf, r, w, true⟩ := by
  simp only [dedupLoop]
  rw [if_pos hr, hf]

theorem dedupLoop_succ_true {α : Type} [Inhabited α] {f : α → α → Option Bool}
    {len fuel : Nat} {buf : List α} {r w : Nat} (hr : r < len)
    (hf : f (buf.getD r default) (buf.getD (w - 1) default) = some true) :
    dedupLoop f len (fuel + 1) buf r w = dedupLoop f len fuel buf (r + 1) w := by
  simp only [dedupLoop]
  rw [if_pos hr, hf]

theorem dedupLoop_succ_false {α : Type} [Inhabited α] {f : α → α → Option Bool}
    {len fuel : Nat} {buf : List α} {r w : Nat} (hr : r < len)
    (hf : f (buf.getD r default) (buf.getD (w - 1) default) = some false) :
    dedupLoop f len (fuel + 1) buf r w
      = dedupLoop f len fuel (buf.set w (buf.getD r default)) (r + 1) (w + 1) := by
  simp only [dedupLoop]
  rw [if_pos hr, hf]

theorem dedupLoop_bounds {α : Type} [Inhabited α] (f : α → α → Option Bool) (len : Nat) :
    ∀ (fuel : Nat) (buf : List α) (r w : Nat), w ≤ r → r ≤ len →
      (dedupLoop f len fuel buf r w).buf.length = buf.length ∧
      (dedupLoop f len fuel buf r w).write ≤ (dedupLoop f len fuel buf r w).read ∧
      (dedupLoop f len fuel buf r w).read ≤ len ∧
      w ≤ (dedupLoop f len fuel buf r w).write := by
  intro fuel
  induction fuel with
  | zero =>
    intro buf r w hwr hrl
    rw [dedupLoop_zero]
    exact ⟨rfl, hwr, hrl, Nat.le_refl _⟩
  | succ fuel ih =>
    intro buf r w hwr hrl
    by_cases hr : r < len
    · cases hf : f (buf.getD r default) (buf.getD (w - 1) default) with
      | none =>
        rw [dedupLoop_succ_none hr hf]
        exact ⟨rfl, hwr, hrl, Nat.le_refl _⟩
      | some b =>
        cases b with
        | true =>
          rw [dedupLoop_succ_true hr hf]
          obtain ⟨h1, h2, h3, h4⟩ := ih buf (r + 1) w (by omega) (by omega)
          exact ⟨h1, h2, h3, h4⟩
        | false =>
          rw [dedupLoop_succ_false hr hf]
          obtain ⟨h1, h2, h3, h4⟩ := ih (buf.set w (buf.getD r default)) (r + 1) (w + 1)
            (by omega) (by omega)
          rw [List.length_set] at h1
          exact ⟨h1, h2, h3, by omega⟩
    · rw [dedupLoop_stop hr]
      exact ⟨rfl, hwr, hrl, Nat.le_refl _⟩

theorem retainMut_inv {α : Type} [Inhabited α] (f : α → Option Bool) (s : MState α)
    (h : s.len ≤ s.buf.length) :
    (outState (retainMut f s)).len ≤ (outState (retainMut f s)).buf.length := by
  obtain ⟨s', hrun, _, hlen, hbl, _⟩ := retainMut_run f s h
  rw [hrun]
  split <;> (simp only [outState]; omega)

theorem dedupByOp_inv {α : Type} [Inhabited α] (f : α → α → Option Bool) (s : MState α)
    (h : s.len ≤ s.buf.length) :
    (outState (dedupByOp f s)).len ≤ (outState (dedupByOp f s)).buf.length := by
  unfold dedupByOp
  dsimp only
  split
  · simpa [outState] using h
  · rename_i hlen1
    obtain ⟨hb, hwr, hrl, hw1⟩ := dedupLoop_bounds f s.len s.len s.buf 1 1
      (Nat.le_refl 1) (by omega)
    split
    · -- comparator aborted: FillGapOnDrop then set_len
      have hcopy : (copyWithin (dedupLoop f s.len s.len s.buf 1 1).buf
          (dedupLoop f s.len s.len s.buf 1 1).write (dedupLoop f s.len s.len s.buf 1 1).read
          (s.len - (dedupLoop f s.len s.len s.buf 1 1).read)).length
          = s.buf.length := by
        rw [copyWithin_length (by omega) (by omega)]
        exact hb
      have hx := setLenOp_inv
        (s.len - ((dedupLoop f s.len s.len s.buf 1 1).read
          - (dedupLoop f s.len s.len s.buf 1 1).write))
        (MState.mk (copyWithin (dedupLoop f s.len s.len s.buf 1 1).buf
          (dedupLoop f s.len s.len s.buf 1 1).write (dedupLoop f s.len s.len s.buf 1 1).read
          (s.len - (dedupLoop f s.len s.len s.buf 1 1).read)) s.len s.ioOk)
        (by simpa [hcopy] using h)
      cases hs : setLenOp (s.len - ((dedupLoop f s.len s.len s.buf 1 1).read
          - (dedupLoop f s.len s.len s.buf 1 1).write))
          (MState.mk (copyWithin (dedupLoop f s.len s.len s.buf 1 1).buf
            (dedupLoop f s.len s.len s.buf 1 1).write (dedupLoop f s.len s.len s.buf 1 1).read
            (s.len - (dedupLoop f s.len s.len s.buf 1 1).read)) s.len s.ioOk) with
      | ok t => rw [hs] at hx; simpa [outState] using hx
      | err t => rw [hs] at hx; simpa [outState] using hx
      | panik t => rw [hs] at hx; simpa [outState] using hx
    · -- normal completion: set_len(write)
      have hx := setLenOp_inv (dedupLoop f s.len s.len s.buf 1 1).write
        (MState.mk (dedupLoop f s.len s.len s.buf 1 1).buf s.len s.ioOk)
        (by simpa [hb] using h)
      cases hs : setLenOp (dedupLoop f s.len s.len s.buf 1 1).write
          (MState.mk (dedupLoop f s.len s.len s.buf 1 1).buf s.len s.ioOk) with
      | ok t => rw [hs] at hx; simpa [outState] using hx
      | err t => rw [hs] at hx; simpa [outState] using hx
      | panik t => rw [hs] at hx; simpa [outState] using hx

/-! ## Claim C5 — `length ≤ capacity` is preserved by every operation -/

/-- C5: starting from any container state with `length ≤ capacity`, every
public container operation (push, pop, insert, remove, swap_remove,
truncate, clear, set_len, retain, dedup via its comparator, reserve,
reserve_exact, shrink_to_fit, shrink_to) leaves `length ≤ capacity`,
whether it returns normally, returns a typed error, or panics; in
particular no shrink reduces capacity below the current length. -/
theorem c5_invariant {α : Type} [Inhabited α] (es : Nat) (op : Op α) (s : MState α)
    (h : s.len ≤ s.buf.length) :
    (outState (applyOp es op s)).len ≤ (outState (applyOp es op s)).buf.length := by
  cases op with
  | push v =>
    simp only [applyOp]
    unfold push
    by_cases hfull : s.len = s.buf.length
    · rw [if_pos hfull]
      cases hg : growAmortized es s.len 1 s with
      | panik t =>
        have ht := growAmortized_panik_eq hg
        subst ht
        simpa [outState] using h
      | err t =>
        have ht := growAmortized_err_eq hg
        subst ht
        simpa [outState] using h
      | ok t =>
        obtain ⟨h1, h2, h3, h4⟩ := growAmortized_ok hg
        simp only [outState, List.length_set]
        omega
    · rw [if_neg hfull]
      have hlt : s.len < s.buf.length := Nat.lt_of_le_of_ne h hfull
      dsimp only
      simp only [outState, List.length_set]
      omega
  | pop =>
    simp only [applyOp]
    unfold pop
    split <;> (simp only [outState]; omega)
  | insert i v =>
    simp only [applyOp]
    unfold insertOp
    split
    · simpa [outState] using h
    · rename_i hile
      by_cases hfull : s.len = s.buf.length
      · rw [if_pos hfull]
        cases hg : reserveOp es 1 s with
        | panik t =>
          have hx := reserveOp_inv es 1 s h
          rw [hg] at hx
          simpa [outState] using hx
        | err t =>
          have hx := reserveOp_inv es 1 s h
          rw [hg] at hx
          simpa [outState] using hx
        | ok t =>
          obtain ⟨ht1, ht2⟩ := reserveOp_ok_full hfull hg
          have hx := setLenOp_inv (s.len + 1)
            (MState.mk (t.buf.take i ++ v :: ((t.buf.drop i).take (s.len - i))
              ++ t.buf.drop (s.len + 1)) t.len t.ioOk)
            (by
              simp only [List.length_append, List.length_cons, List.length_take,
                List.length_drop]
              omega)
          exact hx
      · rw [if_neg hfull]
        have hlt : s.len < s.buf.length := Nat.lt_of_le_of_ne h hfull
        have hx := setLenOp_inv (s.len + 1)
          (MState.mk (s.buf.take i ++ v :: ((s.buf.drop i).take (s.len - i))
            ++ s.buf.drop (s.len + 1)) s.len s.ioOk)
          (by
            simp only [List.length_append, List.length_cons, List.length_take,
              List.length_drop]
            omega)
        exact hx
  | remove i =>
    simp only [applyOp]
    unfold removeOp
    split
    · simpa [outState] using h
    · rename_i hlt
      have hx := setLenOp_inv (s.len - 1)
        (MState.mk (s.buf.take i ++ ((s.buf.drop (i + 1)).take (s.len - 1 - i))
          ++ s.buf.drop (s.len - 1)) s.len s.ioOk)
        (by
          simp only [List.length_append, List.length_take, List.length_drop]
          omega)
      dsimp only
      cases hs : setLenOp (s.len - 1)
          (MState.mk (s.buf.take i ++ ((s.buf.drop (i + 1)).take (s.len - 1 - i))
            ++ s.buf.drop (s.len - 1)) s.len s.ioOk) with
      | ok t => rw [hs] at hx; simpa [outState] using hx
      | err t => rw [hs] at hx; simpa [outState] using hx
      | panik t => rw [hs] at hx; simpa [outState] using hx
  | swapRemove i =>
    simp only [applyOp]
    unfold swapRemove
    split
    · simpa [outState] using h
    · rename_i hlt
      have hx := setLenOp_inv (s.len - 1)
        (MState.mk (s.buf.set i (s.buf.getD (s.len - 1) default)) s.len s.ioOk)
        (by simp only [List.length_set]; omega)
      cases hs : setLenOp (s.len - 1)
          (MState.mk (s.buf.set i (s.buf.getD (s.len - 1) default)) s.len s.ioOk) with
      | ok t => rw [hs] at hx; simpa [outState] using hx
      | err t => rw [hs] at hx; simpa [outState] using hx
      | panik t => rw [hs] at hx; simpa [outState] using hx
  | truncate n =>
    simp only [applyOp]
    unfold truncateOp
    split
    · simpa [outState] using h
    · rename_i hc
      simp only [outState]
      omega
  | clear =>
    simp only [applyOp]
    unfold clearOp truncateOp
    split
    · simpa [outState] using h
    · simp only [outState]
      omega
  | setLen n =>
    simp only [applyOp]
    exact setLenOp_inv n s h
  | retain f =>
    simp only [applyOp]
    exact retainMut_inv f s h
  | dedupBy f =>
    simp only [applyOp]
    exact dedupByOp_inv f s h
  | reserve n =>
    simp only [applyOp]
    exact reserveOp_inv es n s h
  | reserveExact n =>
    simp only [applyOp]
    exact reserveExactOp_inv n s h
  | shrinkToFit =>
    simp only [applyOp]
    exact shrinkToFit_inv s h
  | shrinkTo m =>
    simp only [applyOp]
    exact shrinkTo_inv m s h

theorem c5_invariant_witness :
    (⟨[5, 7], 1, true⟩ : MState Nat).len ≤ (⟨[5, 7], 1, true⟩ : MState Nat).buf.length ∧
      (outState (applyOp 4 (Op.push 9) (⟨[5, 7], 1, true⟩ : MState Nat))).len
        ≤ (outState (applyOp 4 (Op.push 9) (⟨[5, 7], 1, true⟩ : MState Nat))).buf.length :=
  ⟨by decide, c5_invariant 4 (Op.push 9) ⟨[5, 7], 1, true⟩ (by decide)⟩

/-! ### dedup reference-function lemmas -/

theorem dedupFrom_length_le {α : Type} (eq : α → α → Bool) (prev : α) (l : List α) :
    (dedupFrom eq prev l).length ≤ l.length := by
  induction l generalizing prev with
  | nil => simp [dedupFrom]
  | cons y ys ih =>
    unfold dedupFrom
    split
    · exact le_trans (ih prev) (by simp)
    · simpa using ih y

theorem dedupFrom_sublist {α : Type} (eq : α → α → Bool) (prev : α) (l : List α) :
    (dedupFrom eq prev l).Sublist l := by
  induction l generalizing prev with
  | nil => simp [dedupFrom]
  | cons y ys ih =>
    unfold dedupFrom
    split
    · exact List.Sublist.cons y (ih prev)
    · exact List.Sublist.cons₂ y (ih y)

theorem dedupSpec_sublist {α : Type} (eq : α → α → Bool) (l : List α) :
    (dedupSpec eq l).Sublist l := by
  cases l with
  | nil => simp [dedupSpec]
  | cons x xs => exact List.Sublist.cons₂ x (dedupFrom_sublist eq x xs)

theorem noAdjacent_cons_dedupFrom {α : Type} [Inhabited α] (eq : α → α → Bool) (prev : α)
    (l : List α) : noAdjacent eq (prev :: dedupFrom eq prev l) := by
  induction l generalizing prev with
  | nil =>
    intro i hi
    simp [dedupFrom] at hi
  | cons y ys ih =>
    unfold dedupFrom
    split
    · exact ih prev
    · rename_i hne
      intro i hi
      cases i with
      | zero =>
        simpa [List.getD_cons_zero, List.getD_cons_succ] using hne
      | succ j =>
        have hj := ih y j (by simpa using hi)
        simpa [List.getD_cons_succ] using hj

theorem noAdjacent_dedupSpec {α : Type} [Inhabited α] (eq : α → α → Bool) (l : List α) :
    noAdjacent eq (dedupSpec eq l) := by
  cases l with
  | nil =>
    intro i hi
    simp [dedupSpec] at hi
  | cons x xs => exact noAdjacent_cons_dedupFrom eq x xs

theorem dedupSpec_short {α : Type} (eq : α → α → Bool) (l : List α) (h : l.length ≤ 1) :
    dedupSpec eq l = l := by
  cases l with
  | nil => rfl
  | cons x xs =>
    cases xs with
    | nil => rfl
    | cons y ys => simp at h

theorem getD_set_self {α : Type} [Inhabited α] (l : List α) (j : Nat) (a : α)
    (h : j < l.length) : (l.set j a).getD j default = a := by
  rw [List.getD_eq_getElem _ _ (by simpa [List.length_set] using h), List.getElem_set,
    if_pos rfl]

theorem getD_set_ne {α : Type} [Inhabited α] (l : List α) (j m : Nat) (a : α)
    (h : j ≠ m) : (l.set j a).getD m default = l.getD m default := by
  simp [List.getD_eq_getElem?_getD, List.getElem?_set, h]

theorem dedupFrom_cons_dup {α : Type} {eq : α → α → Bool} {prev y : α} {ys : List α}
    (h : eq y prev = true) : dedupFrom eq prev (y :: ys) = dedupFrom eq prev ys := by
  simp only [dedupFrom]
  rw [if_pos h]

theorem dedupFrom_cons_new {α : Type} {eq : α → α → Bool} {prev y : α} {ys : List α}
    (h : eq y prev = false) : dedupFrom eq prev (y :: ys) = y :: dedupFrom eq y ys := by
  simp only [dedupFrom]
  rw [if_neg (by simp [h])]

theorem dedupLoop_spec {α : Type} [Inhabited α] (eq : α → α → Bool) (len : Nat) :
    ∀ (fuel : Nat) (buf : List α) (r w : Nat), 1 ≤ w → w ≤ r → r ≤ len →
      len ≤ buf.length → len - r ≤ fuel →
      ∃ buf',
        dedupLoop (fun a b => some (eq a b)) len fuel buf r w =
          ⟨buf', len,
            w + (dedupFrom eq (buf.getD (w - 1) default)
              ((buf.drop r).take (len - r))).length, false⟩ ∧
        buf'.length = buf.length ∧
        buf'.take (w + (dedupFrom eq (buf.getD (w - 1) default)
            ((buf.drop r).take (len - r))).length)
          = buf.take w ++ dedupFrom eq (buf.getD (w - 1) default)
              ((buf.drop r).take (len - r)) := by
  intro fuel
  induction fuel with
  | zero =>
    intro buf r w hw1 hwr hrl hlb hfuel
    have hre : r = len := by omega
    subst hre
    rw [dedupLoop_zero]
    simp only [Nat.sub_self, List.take_zero, dedupFrom]
    exact ⟨buf, by simp, rfl, by simp⟩
  | succ fuel ih =>
    intro buf r w hw1 hwr hrl hlb hfuel
    by_cases hr : r < len
    · have hrbuf : r < buf.length := by omega
      have hsplit : len - r = (len - (r + 1)) + 1 := by omega
      have hrest : (buf.drop r).take (len - r)
          = buf.getD r default :: (buf.drop (r + 1)).take (len - (r + 1)) := by
        rw [hsplit, drop_take_cons hrbuf]
      rw [hrest]
      cases heq : eq (buf.getD r default) (buf.getD (w - 1) default) with
      | true =>
        rw [dedupLoop_succ_true hr (congrArg some heq)]
        have hdf : dedupFrom eq (buf.getD (w - 1) default)
            (buf.getD r default :: (buf.drop (r + 1)).take (len - (r + 1)))
            = dedupFrom eq (buf.getD (w - 1) default)
              ((buf.drop (r + 1)).take (len - (r + 1))) := dedupFrom_cons_dup heq
        rw [hdf]
        exact ih buf (r + 1) w hw1 (by omega) (by omega) hlb (by omega)
      | false =>
        rw [dedupLoop_succ_false hr (congrArg some heq)]
        have hwbuf : w < buf.length := by omega
        have hprev2 : (buf.set w (buf.getD r default)).getD (w + 1 - 1) default
            = buf.getD r default := by
          rw [Nat.add_sub_cancel]
          exact getD_set_self buf w _ hwbuf
        have hrest2 : ((buf.set w (buf.getD r default)).drop (r + 1)).take (len - (r + 1))
            = (buf.drop (r + 1)).take (len - (r + 1)) := by
          rw [drop_set_of_lt _ _ _ _ (by omega)]
        obtain ⟨buf', heqq, hblen, htake⟩ :=
          ih (buf.set w (buf.getD r default)) (r + 1) (w + 1) (by omega) (by omega)
            (by omega) (by simpa [List.length_set] using hlb) (by omega)
        rw [hprev2, hrest2] at heqq htake
        have hdf : dedupFrom eq (buf.getD (w - 1) default)
            (buf.getD r default :: (buf.drop (r + 1)).take (len - (r + 1)))
            = buf.getD r default :: dedupFrom eq (buf.getD r default)
              ((buf.drop (r + 1)).take (len - (r + 1))) := dedupFrom_cons_new heq
        rw [hdf]
        refine ⟨buf', ?_, by simpa [List.length_set] using hblen, ?_⟩
        · rw [heqq]
          have : w + 1 + (dedupFrom eq (buf.getD r default)
              ((buf.drop (r + 1)).take (len - (r + 1)))).length
              = w + (buf.getD r default :: dedupFrom eq (buf.getD r default)
                ((buf.drop (r + 1)).take (len - (r + 1)))).length := by
            simp
            omega
          rw [this]
        · have harg : w + (buf.getD r default :: dedupFrom eq (buf.getD r default)
              ((buf.drop (r + 1)).take (len - (r + 1)))).length
              = w + 1 + (dedupFrom eq (buf.getD r default)
                ((buf.drop (r + 1)).take (len - (r + 1)))).length := by
            simp
            omega
          rw [harg, htake, take_set_succ _ _ _ hwbuf]
          simp
    · have hre : r = len := by omega
      subst hre
      rw [dedupLoop_stop hr]
      simp only [Nat.sub_self, List.take_zero, dedupFrom]
      exact ⟨buf, by simp, rfl, by simp⟩

theorem dedupBy_run {α : Type} [Inhabited α] (eq : α → α → Bool) (s : MState α)
    (h : s.len ≤ s.buf.length) :
    ∃ s',
      dedupByOp (fun a b => some (eq a b)) s = Outcome.ok s' ∧
      asSlice s' = dedupSpec eq (asSlice s) ∧
      s'.len = (dedupSpec eq (asSlice s)).length := by
  have hsl : (asSlice s).length = s.len := by
    simp only [asSlice, List.length_take]
    omega
  by_cases hs1 : s.len ≤ 1
  · refine ⟨s, ?_, ?_, ?_⟩
    · unfold dedupByOp
      dsimp only
      rw [if_pos hs1]
    · rw [dedupSpec_short eq _ (by omega)]
    · rw [dedupSpec_short eq _ (by omega)]
      omega
  · have h0buf : 0 < s.buf.length := by omega
    have h01 : s.len - 1 + 1 = s.len := by omega
    have hslice : asSlice s = s.buf.getD 0 default :: (s.buf.drop 1).take (s.len - 1) := by
      have hdt := @drop_take_cons α _ s.buf 0 (s.len - 1) h0buf
      rw [List.drop_zero, h01, Nat.zero_add] at hdt
      exact hdt
    have hrlen : ((s.buf.drop 1).take (s.len - 1)).length = s.len - 1 :=
      length_drop_take (by omega)
    have hdlen := dedupFrom_length_le eq (s.buf.getD 0 default)
      ((s.buf.drop 1).take (s.len - 1))
    obtain ⟨buf', heqq, hblen, htake⟩ :=
      dedupLoop_spec eq s.len s.len s.buf 1 1 (Nat.le_refl 1) (Nat.le_refl 1) (by omega) h
        (by omega)
    rw [Nat.sub_self] at heqq htake
    have htk1 : s.buf.take 1 = [s.buf.getD 0 default] := by
      have := take_succ_getD s.buf 0 h0buf
      simpa using this
    have hok : setLenOp (1 + (dedupFrom eq (s.buf.getD 0 default)
        ((s.buf.drop 1).take (s.len - 1))).length) (MState.mk buf' s.len s.ioOk)
        = Outcome.ok (MState.mk buf' (1 + (dedupFrom eq (s.buf.getD 0 default)
            ((s.buf.drop 1).take (s.len - 1))).length) s.ioOk) := by
      unfold setLenOp
      rw [if_neg (show ¬ (MState.mk buf' s.len s.ioOk).buf.length
          < 1 + (dedupFrom eq (s.buf.getD 0 default)
            ((s.buf.drop 1).take (s.len - 1))).length by
        change ¬ buf'.length < _
        omega)]
    refine ⟨MState.mk buf' (1 + (dedupFrom eq (s.buf.getD 0 default)
        ((s.buf.drop 1).take (s.len - 1))).length) s.ioOk, ?_, ?_, ?_⟩
    · unfold dedupByOp
      dsimp only
      rw [if_neg hs1, heqq]
      dsimp only
      rw [if_neg (by simp), hok]
    · show buf'.take (1 + (dedupFrom eq (s.buf.getD 0 default)
        ((s.buf.drop 1).take (s.len - 1))).length) = _
      rw [htake, htk1, hslice]
      simp only [dedupSpec]
      rfl
    · show 1 + (dedupFrom eq (s.buf.getD 0 default)
        ((s.buf.drop 1).take (s.len - 1))).length = _
      rw [hslice]
      simp only [dedupSpec, List.length_cons]
      omega

/-! ## Claim C8 — adjacent dedup -/

/-- C8: after `dedup` (and `dedup_by` with a non-aborting comparator) no
element is judged equal to its immediately preceding kept element — for
`dedup` with equality, no two adjacent elements are equal — and the result
is exactly the original sequence with each element judged equal to the
preceding kept element removed (`dedupSpec`), an in-order subsequence
preserving the first element of every run. -/
theorem c8_dedup_adjacent {α : Type} [Inhabited α] [DecidableEq α] (eq : α → α → Bool)
    (s : MState α) (h : s.len ≤ s.buf.length) :
    (∃ s', dedupByOp (fun a b => some (eq a b)) s = Outcome.ok s' ∧
      asSlice s' = dedupSpec eq (asSlice s) ∧
      s'.len = (dedupSpec eq (asSlice s)).length ∧
      (asSlice s').Sublist (asSlice s) ∧
      noAdjacent eq (asSlice s')) ∧
    (∃ s', dedupOp s = Outcome.ok s' ∧
      asSlice s' = dedupSpec (fun a b => decide (a = b)) (asSlice s) ∧
      (∀ i, i + 1 < (asSlice s').length →
        (asSlice s').getD (i + 1) default ≠ (asSlice s').getD i default)) := by
  constructor
  · obtain ⟨s', h1, h2, h3⟩ := dedupBy_run eq s h
    refine ⟨s', h1, h2, h3, ?_, ?_⟩
    · rw [h2]
      exact dedupSpec_sublist eq (asSlice s)
    · rw [h2]
      exact noAdjacent_dedupSpec eq (asSlice s)
  · obtain ⟨s', h1, h2, h3⟩ := dedupBy_run (fun a b => decide (a = b)) s h
    refine ⟨s', ?_, h2, ?_⟩
    · unfold dedupOp
      exact h1
    · intro i hi
      have hx := noAdjacent_dedupSpec (fun a b => decide (a = b)) (asSlice s) i (by rw [← h2]; exact hi)
      rw [← h2] at hx
      simpa using hx

theorem c8_dedup_adjacent_witness :
    (⟨[1, 1, 2, 2, 3, 9], 5, true⟩ : MState Nat).len
        ≤ (⟨[1, 1, 2, 2, 3, 9], 5, true⟩ : MState Nat).buf.length ∧
      ((∃ s', dedupByOp (fun a b => some ((fun x y : Nat => x == y) a b))
            (⟨[1, 1, 2, 2, 3, 9], 5, true⟩ : MState Nat) = Outcome.ok s' ∧
          asSlice s' = dedupSpec (fun x y : Nat => x == y)
            (asSlice (⟨[1, 1, 2, 2, 3, 9], 5, true⟩ : MState Nat)) ∧
          s'.len = (dedupSpec (fun x y : Nat => x == y)
            (asSlice (⟨[1, 1, 2, 2, 3, 9], 5, true⟩ : MState Nat))).length ∧
          (asSlice s').Sublist (asSlice (⟨[1, 1, 2, 2, 3, 9], 5, true⟩ : MState Nat)) ∧
          noAdjacent (fun x y : Nat => x == y) (asSlice s')) ∧
        (∃ s', dedupOp (⟨[1, 1, 2, 2, 3, 9], 5, true⟩ : MState Nat) = Outcome.ok s' ∧
          asSlice s' = dedupSpec (fun a b => decide (a = b))
            (asSlice (⟨[1, 1, 2, 2, 3, 9], 5, true⟩ : MState Nat)) ∧
          (∀ i, i + 1 < (asSlice s').length →
            (asSlice s').getD (i + 1) default ≠ (asSlice s').getD i default))) :=
  ⟨by decide, c8_dedup_adjacent (fun x y : Nat => x == y) ⟨[1, 1, 2, 2, 3, 9], 5, true⟩
    (by decide)⟩

/-! ### Round-trip support lemmas (byte-level `VecFile`) -/

theorem decodeU64_encodeU64 (n : Nat) (h : n < 2 ^ 64) : decodeU64 (encodeU64 n) = n := by
  simp only [encodeU64, decodeU64, List.foldr]
  omega

theorem encodeU64_length (n : Nat) : (encodeU64 n).length = 8 := rfl

theorem writeAt_spec {v l : List Nat} {ofs : Nat} (h : ofs + v.length ≤ l.length) :
    writeAt l ofs v = l.take ofs ++ v ++ l.drop (ofs + v.length) := by
  induction v generalizing l ofs with
  | nil =>
    simp only [writeAt, List.length_nil, Nat.add_zero, List.append_nil]
    exact (List.take_append_drop ofs l).symm
  | cons b bs ih =>
    simp only [List.length_cons] at h
    simp only [writeAt, List.length_cons]
    have hlen : (l.set ofs b).length = l.length := List.length_set l ofs b
    have hofs : ofs < l.length := by omega
    rw [ih (by rw [hlen]; omega)]
    rw [take_set_succ _ _ _ hofs, drop_set_of_lt _ _ _ _ (by omega)]
    have harith : ofs + 1 + bs.length = ofs + (bs.length + 1) := by omega
    rw [harith]
    simp [List.append_assoc]

theorem writeAt_length {v l : List Nat} {ofs : Nat} (h : ofs + v.length ≤ l.length) :
    (writeAt l ofs v).length = l.length := by
  rw [writeAt_spec h]
  simp only [List.length_append, List.length_take, List.length_drop]
  omega

theorem flatten_chunk {es : Nat} : ∀ (xs : List (List Nat)) (j : Nat),
    (∀ v ∈ xs, v.length = es) → j < xs.length →
    ((xs.flatten.drop (j * es)).take es) = xs.getD j [] := by
  intro xs
  induction xs with
  | nil =>
    intro j _ hj
    simp at hj
  | cons x rest ih =>
    intro j hall hj
    have hx : x.length = es := hall x (by simp)
    cases j with
    | zero =>
      simp only [Nat.zero_mul, List.drop_zero, List.flatten_cons, List.getD_cons_zero]
      rw [← hx, List.take_left]
    | succ j =>
      have harith : (j + 1) * es = x.length + j * es := by
        rw [hx]
        ring
      rw [List.flatten_cons, harith, List.drop_append, List.getD_cons_succ]
      exact ih j (fun v hv => hall v (by simp [hv])) (by simpa using hj)

theorem chunk_of_take {l : List Nat} {es N j : Nat} (h : j * es + es ≤ N * es) :
    ((l.take (N * es)).drop (j * es)).take es = (l.drop (j * es)).take es := by
  rw [List.drop_take, List.take_take]
  congr 1
  omega

theorem vfReserve_grow {c : Nat} {s : VecFileMem} (hle : s.data.length ≤ c)
    (hlt : c < 2 ^ 63) :
    vfReserve c s = ⟨s.lenWord, s.data ++ List.replicate (c - s.data.length) 0⟩ := by
  unfold vfReserve
  dsimp only
  rw [wsub_of_le hle (by rw [U64_eq]; omega), isizeNeg_of_lt (by omega)]
  simp

theorem pushBytes_grow_eq {es : Nat} {v : List Nat} {s : VecFileMem} {t : Nat}
    (h : s.lenWord = s.data.length / es)
    (htgt : growAmortizedCapTarget es (s.data.length / es) s.lenWord 1 = some t) :
    pushBytes es v s = some
      ⟨((vfReserve (reserveArgBytes es t) s).lenWord + 1) % U64,
        writeAt (vfReserve (reserveArgBytes es t) s).data (s.lenWord * es) v⟩ := by
  unfold pushBytes
  dsimp only
  rw [if_pos h, htgt]
  rfl

theorem pushBytes_nogrow_eq {es : Nat} {v : List Nat} {s : VecFileMem}
    (h : ¬ s.lenWord = s.data.length / es) :
    pushBytes es v s = some ⟨(s.lenWord + 1) % U64, writeAt s.data (s.lenWord * es) v⟩ := by
  unfold pushBytes
  dsimp only
  rw [if_neg h]
  rfl

theorem writeAt_take_content {data v : List Nat} {done es : Nat} (hv : v.length = es)
    (h : (done + 1) * es ≤ data.length) :
    (writeAt data (done * es) v).take ((done + 1) * es) = data.take (done * es) ++ v := by
  have hmul : (done + 1) * es = done * es + es := Nat.succ_mul done es
  have hle : done * es + v.length ≤ data.length := by
    rw [hv]
    omega
  rw [writeAt_spec hle, hmul]
  have htl : (data.take (done * es)).length = done * es := by
    simp only [List.length_take]
    omega
  rw [List.append_assoc]
  calc (data.take (done * es) ++ (v ++ data.drop (done * es + v.length))).take
        (done * es + es)
      = (data.take (done * es) ++ (v ++ data.drop (done * es + v.length))).take
        ((data.take (done * es)).length + es) := by rw [htl]
    _ = data.take (done * es) ++ (v ++ data.drop (done * es + v.length)).take es :=
        List.take_append es
    _ = data.take (done * es) ++ v := by rw [← hv, List.take_left]

theorem pushAllBytes_spec (es : Nat) (hes : 0 < es) (N : Nat)
    (hbound : max (minNonZeroCap es) (2 * N) * es < 2 ^ 63) :
    ∀ (vs : List (List Nat)) (s : VecFileMem) (done c : Nat),
      (∀ v ∈ vs, v.length = es) →
      s.lenWord = done →
      done + vs.length ≤ N →
      s.data.length = c * es →
      done ≤ c →
      c ≤ max (minNonZeroCap es) (2 * done) →
      ∃ s' c',
        pushAllBytes es vs s = some s' ∧
        s'.lenWord = done + vs.length ∧
        s'.data.length = c' * es ∧
        done + vs.length ≤ c' ∧
        c' ≤ max (minNonZeroCap es) (2 * (done + vs.length)) ∧
        s'.data.take ((done + vs.length) * es) = s.data.take (done * es) ++ vs.flatten := by
  have hmax_lt : max (minNonZeroCap es) (2 * N) < 2 ^ 63 := by
    have h1 : max (minNonZeroCap es) (2 * N) * 1 ≤ max (minNonZeroCap es) (2 * N) * es :=
      Nat.mul_le_mul_left _ hes
    omega
  intro vs
  induction vs with
  | nil =>
    intro s done c hall hlw hN hdl hdc hcb
    exact ⟨s, c, rfl, by simpa using hlw, hdl, by simpa using hdc, by simpa using hcb,
      by simp⟩
  | cons v vs ih =>
    intro s done c hall hlw hN hdl hdc hcb
    have hv : v.length = es := hall v (by simp)
    simp only [List.length_cons] at hN ⊢
    have hdone1 : done + 1 ≤ N := by omega
    have hcap : s.data.length / es = c := by
      rw [hdl]
      exact Nat.mul_div_cancel c hes
    by_cases hfull : done = c
    · -- push grows first
      subst hfull
      set t := max (minNonZeroCap es) (max (done * 2) (done + 1)) with hts
      have htb1 : done + 1 ≤ t := le_trans (le_max_right _ _) (le_max_right _ _)
      have htb2 : t ≤ max (minNonZeroCap es) (2 * (done + 1)) := by
        rw [hts]
        omega
      have htb3 : t ≤ max (minNonZeroCap es) (2 * N) := by
        rw [hts]
        omega
      have htes : t * es < 2 ^ 63 :=
        Nat.lt_of_le_of_lt (Nat.mul_le_mul_right es htb3) hbound
      have hc2 : done * 2 % U64 = done * 2 := by
        apply Nat.mod_eq_of_lt
        rw [U64_eq]
        omega
      have htgt : growAmortizedCapTarget es (s.data.length / es) s.lenWord 1 = some t := by
        rw [hcap, hlw]
        unfold growAmortizedCapTarget checkedAdd
        rw [if_pos (by rw [U64_eq]; omega)]
        simp only [Option.map_some', Option.some.injEq, hc2, hts]
      have hres : reserveArgBytes es t = t * es := by
        unfold reserveArgBytes
        apply Nat.mod_eq_of_lt
        rw [U64_eq]
        omega
      have hdle : s.data.length ≤ t * es := by
        rw [hdl]
        exact Nat.mul_le_mul_right es (by omega)
      have hs1 : vfReserve (reserveArgBytes es t) s
          = ⟨s.lenWord, s.data ++ List.replicate (t * es - s.data.length) 0⟩ := by
        rw [hres]
        exact vfReserve_grow hdle htes
      have hs1len : (s.data ++ List.replicate (t * es - s.data.length) 0).length
          = t * es := by
        simp only [List.length_append, List.length_replicate]
        omega
      have hwr : (done + 1) * es ≤ t * es := Nat.mul_le_mul_right es htb1
      have hwlen : (writeAt (s.data ++ List.replicate (t * es - s.data.length) 0)
          (done * es) v).length = t * es := by
        have h1 : done * es + v.length
            ≤ (s.data ++ List.replicate (t * es - s.data.length) 0).length := by
          rw [hs1len, hv]
          have h2 := hwr
          rw [Nat.succ_mul] at h2
          omega
        rw [writeAt_length h1]
        exact hs1len
      have hpush := @pushBytes_grow_eq es v s t (by rw [hcap, hlw]) htgt
      rw [hs1] at hpush
      simp only at hpush
      have hlw1 : (done + 1) % U64 = done + 1 := by
        apply Nat.mod_eq_of_lt
        rw [U64_eq]
        omega
      rw [hlw, hlw1] at hpush
      obtain ⟨s', c', hrun, hlw', hdl', hdc', hcb', hcontent⟩ :=
        ih ⟨done + 1, writeAt (s.data ++ List.replicate (t * es - s.data.length) 0)
            (done * es) v⟩ (done + 1) t (fun u hu => hall u (by simp [hu])) rfl
          (by omega)
          hwlen htb1 htb2
      refine ⟨s', c', ?_, by omega, hdl', by omega, by omega, ?_⟩
      · simp only [pushAllBytes, hpush, Option.some_bind]
        exact hrun
      · have harith : done + (vs.length + 1) = (done + 1) + vs.length := by omega
        rw [harith, hcontent]
        have hw := writeAt_take_content hv (by rw [hs1len]; exact hwr)
        simp only at hw
        rw [hw]
        have hpre : (s.data ++ List.replicate (t * es - s.data.length) 0).take (done * es)
            = s.data.take (done * es) := by
          apply List.take_append_of_le_length
          rw [hdl]
        rw [hpre, List.flatten_cons, List.append_assoc]
    · -- no growth: there is already room
      have hlt : done < c := by omega
      have hpush := @pushBytes_nogrow_eq es v s
        (by rw [hcap, hlw]; exact hfull)
      have hlw1 : (done + 1) % U64 = done + 1 := by
        apply Nat.mod_eq_of_lt
        rw [U64_eq]
        omega
      rw [hlw, hlw1] at hpush
      have hwr : (done + 1) * es ≤ c * es := Nat.mul_le_mul_right es (by omega)
      have hwlen2 : (writeAt s.data (done * es) v).length = c * es := by
        have h1 : done * es + v.length ≤ s.data.length := by
          rw [hdl, hv]
          have h2 := hwr
          rw [Nat.succ_mul] at h2
          omega
        rw [writeAt_length h1]
        exact hdl
      obtain ⟨s', c', hrun, hlw', hdl', hdc', hcb', hcontent⟩ :=
        ih ⟨done + 1, writeAt s.data (done * es) v⟩ (done + 1) c
          (fun u hu => hall u (by simp [hu])) rfl (by omega)
          hwlen2 (by omega) (by omega)
      refine ⟨s', c', ?_, by omega, hdl', by omega, by omega, ?_⟩
      · simp only [pushAllBytes, hpush, Option.some_bind]
        exact hrun
      · have harith : done + (vs.length + 1) = (done + 1) + vs.length := by omega
        rw [harith, hcontent]
        have hw := writeAt_take_content hv (by rw [hdl]; exact hwr)
        simp only at hw
        rw [hw, List.flatten_cons, List.append_assoc]

theorem fromFileBytes_toFileBytes (s : VecFileMem) (h : s.lenWord < 2 ^ 64) :
    fromFileBytes (toFileBytes s) = some s := by
  unfold fromFileBytes toFileBytes HEADER_LEN
  rw [if_neg (by rw [List.length_append, encodeU64_length]; omega)]
  have ht : (encodeU64 s.lenWord ++ s.data).take 8 = encodeU64 s.lenWord := by
    have h1 := List.take_left (encodeU64 s.lenWord) s.data
    rwa [encodeU64_length] at h1
  have hd : (encodeU64 s.lenWord ++ s.data).drop 8 = s.data := by
    have h1 := List.drop_left (encodeU64 s.lenWord) s.data
    rwa [encodeU64_length] at h1
  rw [ht, hd, decodeU64_encodeU64 _ h]

/-! ## Claim C1 — persistence round-trip -/

/-- C1: for every element size and every sequence of fixed-layout elements
(byte strings of that size), pushing them one at a time into a container
bound over a freshly created persistent vector file, serializing the file,
reopening it and binding it to the same element type yields a container of
the same length holding the same elements in the same order with identical
byte values.  Hypotheses: positive element size, element alignment dividing
the 8-byte header (the data mapping starts 8 bytes past a page-aligned
address), and total size below `2 ^ 63` bytes (`isize::MAX`, below which no
`usize` arithmetic wraps). -/
theorem c1_round_trip (es align : Nat) (xs : List (List Nat))
    (hes : 0 < es) (hal : 8 % align = 0)
    (helem : ∀ v ∈ xs, v.length = es)
    (hbound : max (minNonZeroCap es) (2 * xs.length) * es < 2 ^ 63) :
    ∃ s : VecFileMem,
      openOrCreateBytes [] = some ⟨0, []⟩ ∧
      pushAllBytes es xs ⟨0, []⟩ = some s ∧
      fromFileBytes (toFileBytes s) = some s ∧
      tryFromMemory es align (toRaw s) = Sum.inr (toRaw s) ∧
      s.lenWord = xs.length ∧
      readElems es s = xs := by
  have hN : 2 * xs.length < 2 ^ 63 := by
    have h1 : max (minNonZeroCap es) (2 * xs.length) * 1
        ≤ max (minNonZeroCap es) (2 * xs.length) * es := Nat.mul_le_mul_left _ hes
    omega
  obtain ⟨s, c, hrun, hlw, hdl, hdc, hcb, hcontent⟩ :=
    pushAllBytes_spec es hes xs.length hbound xs ⟨0, []⟩ 0 0 helem rfl (by omega)
      (by simp) (Nat.le_refl 0) (by simp)
  simp only [Nat.zero_add, Nat.zero_mul, List.take_zero, List.take_nil,
    List.nil_append] at hlw hdc hcb hcontent
  refine ⟨s, rfl, hrun, fromFileBytes_toFileBytes s (by rw [hlw]; omega),
    ?_, hlw, ?_⟩
  · unfold tryFromMemory
    have hpre : alignPrefixLen align (toRaw s) = 0 := by
      unfold alignPrefixLen toRaw HEADER_LEN
      simp only
      rw [hal, Nat.sub_zero, Nat.mod_self]
      simp
    have hcap : rawCapacity es (toRaw s) = c := by
      unfold rawCapacity toRaw
      simp only
      rw [hdl]
      exact Nat.mul_div_cancel c hes
    rw [if_neg (by simp [hpre]), if_neg (by
      rw [hcap]
      show ¬ c < s.lenWord
      omega)]
  · unfold readElems
    rw [hlw]
    apply List.ext_getElem
    · simp
    · intro j hj1 hj2
      simp only [List.getElem_map, List.getElem_range]
      unfold chunkAt
      have hjlt : j < xs.length := by simpa using hj1
      have hle : j * es + es ≤ xs.length * es := by
        have h2 : (j + 1) * es ≤ xs.length * es := Nat.mul_le_mul_right es (by omega)
        rw [Nat.succ_mul] at h2
        omega
      rw [← @chunk_of_take s.data es xs.length j hle, hcontent,
        flatten_chunk xs j helem hjlt]
      exact List.getD_eq_getElem xs [] hjlt

theorem c1_round_trip_witness :
    (0 : Nat) < 2 ∧ 8 % 2 = 0 ∧ (∀ v ∈ [[1, 2], [3, 4]], List.length v = 2) ∧
      max (minNonZeroCap 2) (2 * List.length [[1, 2], [3, 4]]) * 2 < 2 ^ 63 ∧
      (∃ s : VecFileMem, openOrCreateBytes [] = some ⟨0, []⟩ ∧
        pushAllBytes 2 [[1, 2], [3, 4]] ⟨0, []⟩ = some s ∧
        fromFileBytes (toFileBytes s) = some s ∧
        tryFromMemory 2 2 (toRaw s) = Sum.inr (toRaw s) ∧
        s.lenWord = List.length [[1, 2], [3, 4]] ∧
        readElems 2 s = [[1, 2], [3, 4]]) :=
  ⟨by decide, by decide, by decide, by decide,
    c1_round_trip 2 2 [[1, 2], [3, 4]] (by decide) (by decide) (by decide) (by decide)⟩
